import Mathlib

/-!
Verification development for the borg-data-assimilator transcript core.

The development shallowly embeds:
* the JavaScript string/regex behaviour that the transcript parser in
  `src/transcript/parser.ts` relies on (the regex bank is built from JS
  string literals, so escape sequences such as a backslash-s inside a
  plain single-quoted string degrade to the bare letter; the embedded
  patterns below reproduce the regexes exactly as the JS engine receives
  them, not as the programmer's comments intend them);
* the parsing state machine (`_finalizeAndAddCue`, `_processLine`,
  `parseTranscript`);
* the cache service (`src/services/cache.ts`) with explicit time and an
  association-list model of the persisted file tier (the file system and
  the crypto hash are external collaborators; they are modelled as a
  key/value map and an abstract function respectively);
* the search layer (`_searchCuesByFilter`, `searchDialog`,
  `searchKeyword`).

Strings are modelled as `List Char` throughout.
-/

abbrev Str := List Char

/-! ### JavaScript character and string primitives -/

/-- The character ranges recognised by the JS regex class backslash-s and by
`String.prototype.trim` (WhiteSpace plus LineTerminator). -/
def wsRanges : List (Char × Char) :=
  [('\t', '\r'), (' ', ' '), (' ', ' '), (' ', ' '),
   (' ', ' '), (' ', ' '), (' ', ' '),
   (' ', ' '), ('　', '　'), ('﻿', '﻿')]

/-- Membership of a character in a list of inclusive ranges. -/
def charIn (rs : List (Char × Char)) (c : Char) : Bool :=
  rs.any (fun r => decide (r.1 ≤ c) && decide (c ≤ r.2))

/-- JS whitespace predicate. -/
def jsIsWs (c : Char) : Bool := charIn wsRanges c

/-- `String.prototype.toUpperCase`, restricted to the characters appearing in
this code base (ASCII letters plus the accented letter in the credit
patterns). -/
def jsToUpper (c : Char) : Char :=
  if 'a' ≤ c ∧ c ≤ 'z' then Char.ofNat (c.toNat - 32)
  else if c = 'é' then 'É' else c

/-- `String.prototype.toLowerCase`, same character scope as `jsToUpper`. -/
def jsToLower (c : Char) : Char :=
  if 'A' ≤ c ∧ c ≤ 'Z' then Char.ofNat (c.toNat + 32)
  else if c = 'É' then 'é' else c

def jsToUpperStr (s : Str) : Str := s.map jsToUpper

/-- `String.prototype.trim`. -/
def jsTrim (s : Str) : Str :=
  ((s.dropWhile jsIsWs).reverse.dropWhile jsIsWs).reverse

/-- Right trim (used to describe regex captures). -/
def rtrimWs (s : Str) : Str := (s.reverse.dropWhile jsIsWs).reverse

theorem dropWhile_length_le (p : Char → Bool) (l : List Char) :
    (l.dropWhile p).length ≤ l.length := by
  induction l with
  | nil => simp [List.dropWhile]
  | cons c rest ih =>
    simp only [List.dropWhile]
    by_cases h : p c
    · simp only [h]
      exact Nat.le_trans ih (Nat.le_succ _)
    · simp [h]

/-- Worker for `collapseWs`; when the flag is set the traversal is inside
a whitespace run that has already been emitted as a single space and is
discarding the remainder of the run. -/
def collapseWsAux : Bool → Str → Str
  | _, [] => []
  | true, c :: rest =>
    if jsIsWs c then collapseWsAux true rest else c :: collapseWsAux false rest
  | false, c :: rest =>
    if jsIsWs c then
      match rest with
      | [] => [c]
      | c2 :: _ =>
        if jsIsWs c2 then ' ' :: collapseWsAux true rest
        else c :: collapseWsAux false rest
    else c :: collapseWsAux false rest

/-- `str.replace(slash-s-s-plus-g, " ")`: every maximal whitespace run of
length at least two is replaced by a single space; a lone whitespace
character is kept as is. -/
def collapseWs (s : Str) : Str := collapseWsAux false s

/-- `content.split("\n")`. -/
def splitNl : Str → List Str
  | [] => [[]]
  | c :: rest =>
    let r := splitNl rest
    if c = '\n' then [] :: r
    else (c :: r.headD []) :: r.tail

/-- Model of Node's `path.basename` for slash-separated paths (the `path`
module is an external collaborator): the final path component. -/
def jsBasename (p : Str) : Str :=
  (p.reverse.takeWhile (fun c => decide (c ≠ '/'))).reverse

/-! ### A backtracking regex matcher

Every quantified subexpression in the regexes of this code base is a
character class (after JS string-literal escape degradation), so the
matcher below only needs star/plus over character classes; it therefore
recurses structurally on the pattern while enumerating, in exact JS
backtracking order, the list of `(remaining input, captures)` outcomes of
matching a pattern at the start of the input.  The head of that list is
the outcome `RegExp.prototype.exec` / `String.prototype.match` commits
to; the list being nonempty is what `test` reports. -/

inductive Re : Type where
  | eps : Re
  | lit : Char → Re
  | cls : Bool → List (Char × Char) → Re
  | seq : Re → Re → Re
  | alt : Re → Re → Re
  | opt : Re → Re
  | starCls : Bool → Bool → List (Char × Char) → Re
  | grp : Nat → Re → Re
  | eol : Re
deriving Repr

/-- Case-insensitive-aware literal character comparison (JS canonicalises
through `toUpperCase` when the `i` flag is set). -/
def litEq (ic : Bool) (a c : Char) : Bool :=
  if ic then decide (jsToUpper a = jsToUpper c) else decide (a = c)

/-- Character-class membership, honouring the `i` flag the way the JS
matcher does (a character matches if some class member canonicalises to
the same character). -/
def clsHit (ic : Bool) (rs : List (Char × Char)) (c : Char) : Bool :=
  charIn rs c || (ic && (charIn rs (jsToUpper c) || charIn rs (jsToLower c)))

def clsMatch (ic neg : Bool) (rs : List (Char × Char)) (c : Char) : Bool :=
  if neg then !(clsHit ic rs c) else clsHit ic rs c

/-- Length of the maximal prefix of `s` whose characters satisfy `p`. -/
def charRun (p : Char → Bool) : Str → Nat
  | [] => 0
  | c :: rest => if p c then charRun p rest + 1 else 0

/-- Capture registers: group index to captured text, most recent first. -/
abbrev Caps := List (Nat × Str)

def capLookup (caps : Caps) (i : Nat) : Option Str :=
  (caps.find? (fun p => p.1 == i)).map (·.2)

/-- All outcomes of matching `r` at the start of `s`, in JS backtracking
priority order.  `starCls lazy neg rs` enumerates the possible consumed
lengths of a class star: shortest first when lazy, longest first when
greedy.  `opt` (a greedy `?`) tries its body before skipping. -/
def mall (ic : Bool) : Re → Str → Caps → List (Str × Caps)
  | .eps, s, caps => [(s, caps)]
  | .lit a, s, caps =>
    match s with
    | [] => []
    | c :: rest => if litEq ic a c then [(rest, caps)] else []
  | .cls neg rs, s, caps =>
    match s with
    | [] => []
    | c :: rest => if clsMatch ic neg rs c then [(rest, caps)] else []
  | .seq a b, s, caps => (mall ic a s caps).flatMap (fun o => mall ic b o.1 o.2)
  | .alt a b, s, caps => mall ic a s caps ++ mall ic b s caps
  | .opt r, s, caps => mall ic r s caps ++ [(s, caps)]
  | .starCls lz neg rs, s, caps =>
    let n := charRun (clsMatch ic neg rs) s
    let idxs := if lz then List.range (n + 1) else (List.range (n + 1)).reverse
    idxs.map (fun i => (s.drop i, caps))
  | .grp i r, s, caps =>
    (mall ic r s caps).map (fun o => (o.1, (i, s.take (s.length - o.1.length)) :: o.2))
  | .eol, s, caps => if s.isEmpty then [(s, caps)] else []

/-- `RegExp.prototype.test` for a pattern anchored at position 0. -/
def reTest (ic : Bool) (r : Re) (s : Str) : Bool := !(mall ic r s []).isEmpty

/-- First (committed) match outcome of an anchored pattern. -/
def reFirst (ic : Bool) (r : Re) (s : Str) : Option (Str × Caps) :=
  (mall ic r s []).head?

/-- `RegExp.prototype.test` for an unanchored pattern: a match may start at
any position. -/
def reTestAnywhere (ic : Bool) (r : Re) (s : Str) : Bool :=
  (List.range (s.length + 1)).any (fun i => !(mall ic r (s.drop i) []).isEmpty)

/-- Literal string pattern. -/
def rstr (s : String) : Re := s.data.foldr (fun c r => Re.seq (Re.lit c) r) Re.eps

/-- Sequencing of a list of patterns. -/
def rseq (l : List Re) : Re := l.foldr Re.seq Re.eps

/-- Ordered alternation of a list of patterns. -/
def ralt : List Re → Re
  | [] => .eps
  | [r] => r
  | r :: s :: rest => .alt r (ralt (s :: rest))

/-! ### The regex bank of the transcript parser

Each pattern below is the regex **as the JS engine receives it**.  The
regexes built from plain string literals lose their backslashes on
unrecognised escapes: in a JS single-quoted string (or untagged template
literal) a backslash-s is just `s`, a backslash-parenthesis is just the
parenthesis, and so on.  Consequently:

* `SPEAKER_CORE_CHARSET` (source text `'[A-Z0-9\s,\'\-.()]'`) denotes the
  class `[A-Z0-9s,'-.()]` — the literal letter `s`, and the *range* from
  apostrophe (0x27) to period (0x2E); it contains **no whitespace**;
* `OPTIONAL_PAREN_ANNOTATION` (source `'(?:\s*\([^)]*?\))?'`) denotes
  `(?:s*([^)]*?))?` — an optional run of the letter `s` followed by a
  **capturing** group of a lazy any-but-close-paren star;
* `OPTIONAL_BRACKET_ANNOTATION` (source `'(?:\s*\[[^\]]*?\])?'`) denotes
  `(?:s*[[^]]*?])?` — optional: a run of `s`, one character from the class
  containing open-bracket and caret, a lazy run of close-brackets, and a
  close-bracket.

Patterns written with doubled backslashes (`'\\s'` etc.) survive intact,
as does the `CREDIT_LINE` regex literal. -/

def upperRanges : List (Char × Char) := [('A', 'Z')]
def digitRanges : List (Char × Char) := [('0', '9')]

/-- The JS `.` (dot) matches anything but a line terminator; these are the
excluded characters (the class is used negated). -/
def dotExclRanges : List (Char × Char) :=
  [('\n', '\n'), ('\r', '\r'), (Char.ofNat 0x2028, Char.ofNat 0x2029)]

/-- The class `[A-Z0-9s,'-.()]` that `SPEAKER_CORE_CHARSET` actually
denotes: upper-case letters, digits, the letter `s`, comma, the range
apostrophe–period (which covers apostrophe, parentheses, asterisk, plus,
comma, hyphen, period), and the two parentheses. -/
def speakerCoreRanges : List (Char × Char) :=
  [('A', 'Z'), ('0', '9'), ('s', 's'), (',', ','), ('\'', '.'), ('(', '('), (')', ')')]

def wsStar : Re := .starCls false false wsRanges
def wsPlus : Re := .seq (.cls false wsRanges) wsStar
def digitPlus : Re := .seq (.cls false digitRanges) (.starCls false false digitRanges)

/-- Lazy `[^)]*?`. -/
def lazyNotCloseParen : Re := .starCls true true [(')', ')')]

/-- Greedy `s*` (the degraded remains of an intended whitespace star). -/
def sStar : Re := .starCls false false [('s', 's')]

/-- `(?:s*(<grp i>[^)]*?))?` — the degraded `OPTIONAL_PAREN_ANNOTATION`,
with its accidental capturing group. -/
def parenOptBroken (i : Nat) : Re := .opt (.seq sStar (.grp i lazyNotCloseParen))

/-- `(?:s*[[^]]*?])?` — the degraded `OPTIONAL_BRACKET_ANNOTATION`: inside,
the class `[[^]` holds just open-bracket and caret, then `]*?` is a lazy
run of close-brackets, then a literal close-bracket. -/
def bracketOptBroken : Re :=
  .opt (rseq [sStar, .cls false [('[', '['), ('^', '^')],
              .starCls true false [(']', ']')], .lit ']'])

/-- `SPEAKER_TAG_PATTERN_STRING` as received by the engine:
`[A-Z][A-Z0-9s,'-.()]*(?:s*([^)]*?))?(?:s*[[^]]*?])?`. -/
def speakerTag : Re :=
  rseq [.cls false upperRanges, .starCls false false speakerCoreRanges,
        parenOptBroken 2, bracketOptBroken]

/-- Alternative (a) of `REGEX.CUE_START`:
`(?:(?:\([^)]*?\)\s*)?(SPEAKER_TAG)\s*:)` (this part was written with
doubled backslashes, so its whitespace classes are real). -/
def cueStartAltA : Re :=
  rseq [.opt (rseq [.lit '(', lazyNotCloseParen, .lit ')', wsStar]),
        .grp 1 speakerTag, wsStar, .lit ':']

/-- Alternative (b): `(?:\(([^)]*?)\))`. -/
def cueStartAltB : Re := rseq [.lit '(', .grp 3 lazyNotCloseParen, .lit ')']

/-- Alternative (c): `(?:\[(.*?)\])`. -/
def cueStartAltC : Re := rseq [.lit '[', .grp 4 (.starCls true true dotExclRanges), .lit ']']

/-- Alternative (d): `(?:((?:Stardate|Captain's log|Original Airdate):))`. -/
def cueStartAltD : Re :=
  .grp 5 (.seq (ralt [rstr "Stardate", rstr "Captain's log", rstr "Original Airdate"]) (.lit ':'))

/-- `REGEX.CUE_START`. -/
def cueStartRe : Re :=
  .seq wsStar (ralt [cueStartAltA, cueStartAltB, cueStartAltC, cueStartAltD])

/-- `REGEX.SCENE_HEADER`: `^\s*\d+\s+(.+?)\s+\d+\s*$`. -/
def sceneHeaderRe : Re :=
  rseq [wsStar, digitPlus, wsPlus,
        .grp 1 (.seq (.cls true dotExclRanges) (.starCls true true dotExclRanges)),
        wsPlus, digitPlus, wsStar, .eol]

/-- `REGEX.MOVIE_LINE`: `^\s*(?:\d+\s+OMITTED(?:\s+\d+)?|\d+)\s*$`. -/
def movieLineRe : Re :=
  rseq [wsStar,
        .alt (rseq [digitPlus, wsPlus, rstr "OMITTED", .opt (.seq wsPlus digitPlus)])
             digitPlus,
        wsStar, .eol]

/-- `REGEX.FOOTER`: `^\s*<Back to the episode listing`. -/
def footerRe : Re := .seq wsStar (rstr "<Back to the episode listing")

/-- The class `[A-Z0-9\s'.]` of `REGEX.MOVIE_SPEAKER` (written with doubled
backslashes, so intact). -/
def movieSpeakerCoreRanges : List (Char × Char) :=
  [('A', 'Z'), ('0', '9')] ++ wsRanges ++ [('\'', '\''), ('.', '.')]

/-- The class `[A-Z\s.]` inside `REGEX.MOVIE_SPEAKER`'s parenthesised part. -/
def movieSpeakerParenRanges : List (Char × Char) :=
  [('A', 'Z')] ++ wsRanges ++ [('.', '.')]

/-- `REGEX.MOVIE_SPEAKER`:
`^\s{10,}([A-Z][A-Z0-9\s'.]*(?:\([A-Z\s.]+\))?(?:'S\sVOICE)?)\s*$`. -/
def movieSpeakerRe : Re :=
  rseq (List.replicate 10 (Re.cls false wsRanges) ++
        [wsStar,
         .grp 1 (rseq [.cls false upperRanges,
                       .starCls false false movieSpeakerCoreRanges,
                       .opt (rseq [.lit '(', .cls false movieSpeakerParenRanges,
                                   .starCls false false movieSpeakerParenRanges, .lit ')']),
                       .opt (rseq [.lit '\'', .lit 'S', .cls false wsRanges, rstr "VOICE"])]),
         wsStar, .eol])

/-- The alternatives of `REGEX.CREDIT_LINE` (a regex literal with the `i`
flag; backslashes intact). -/
def creditAlts : List Re :=
  [rstr "Story by", rstr "Screenplay by", rstr "Written by", rstr "Directed by",
   rstr "Produced by", rstr "Executive Producer", rstr "Co-Executive Producer",
   rstr "Associate Producer", rstr "Consulting Producer", rstr "Teleplay by",
   rstr "First Draft", rstr "Original Airdate:", rstr "Airdate:",
   rstr "Captain's log, supplemental",
   rseq [rstr "Stardate", .starCls false true dotExclRanges, digitPlus, .lit '.', digitPlus],
   rstr "basée sur une idée originale", rstr "une coproduction de", rstr "adapté par",
   rstr "dialogues de", rstr "scénario et dialogues", rstr "September 29, 1995",
   rstr "copyright", rstr "all rights reserved", rstr "transcribed by",
   rseq [rstr "credit", .opt (.lit 's'), rstr " and transcriptions by"]]

/-- `REGEX.CREDIT_LINE`: `^(?:\s*\[null\]\s*)?(?:…alternatives…)` with the
`i` flag. -/
def creditLineRe : Re :=
  .seq (.opt (rseq [wsStar, rstr "[null]", wsStar])) (ralt creditAlts)

/-- The regex `searchDialog` builds from its pattern (an untagged template
literal, so the annotation groups degrade exactly as in `speakerTag`):
`^(PATTERN)(?:s*([^)]*?))?(?:s*[[^]]*?])?$` with the `i` flag. -/
def searchDialogRe (pat : Re) : Re :=
  rseq [.grp 1 pat, parenOptBroken 2, bracketOptBroken, .eol]

/-! ### The transcript parser state machine -/

/-- A finalized cue: the raw (possibly re-rendered) text and the optional
character name (`TranscriptCue`). -/
structure Cue where
  raw : Str
  character : Option Str
deriving DecidableEq, Repr

/-- The in-progress cue held in `ParsingState.currentCue`. -/
structure PartialCue where
  raw : Str
  character : Option Str
deriving DecidableEq, Repr

/-- `ParsingState` of the parser. -/
structure ParsingState where
  cues : List Cue
  currentCue : Option PartialCue
  pendingMovieSpeaker : Option Str
  currentSceneContext : Option Str
deriving DecidableEq, Repr

def initState : ParsingState := ⟨[], none, none, none⟩

/-- The `[null]` artifact stripping at the top of `_finalizeAndAddCue`:
drop a leading `"[null] "`, and blank a bare `"[null]"`. -/
def stripNull (rawText0 : Str) : Str :=
  let rawText1 :=
    if "[null] ".data.isPrefixOf rawText0 then rawText0.drop "[null] ".data.length
    else rawText0
  if rawText1 = "[null]".data then [] else rawText1

/-- `characterToUse` in `_finalizeAndAddCue`: the trimmed character when
the character is set and its trim is non-empty (JS truthiness of strings
is non-emptiness). -/
def characterToUseOf (cc : PartialCue) : Option Str :=
  match cc.character with
  | some ch => if jsTrim ch = [] then none else some (jsTrim ch)
  | none => none

/-- The dialogue re-rendering of `_finalizeAndAddCue`: if the accumulated
text already starts with `"CHARACTER:"` (case-insensitively) the
redundant prefix is stripped, and the cue is re-rendered as
`"CHARACTER: <body>"`. -/
def dialogueCueOf (ch rawText2 : Str) : Cue :=
  let dialogueSegment :=
    if (jsToUpperStr (ch ++ [':'])).isPrefixOf (jsToUpperStr rawText2) then
      jsTrim (rawText2.drop (ch.length + 1))
    else rawText2
  ⟨ch ++ ':' :: ' ' :: dialogueSegment, some ch⟩

/-- The scene-context threading of `_finalizeAndAddCue` for a
speaker-less cue: returns the (possibly context-prefixed) text together
with the scene context that remains active afterwards. -/
def scenePairOf (ctxOpt : Option Str) (rawText2 : Str) : Str × Option Str :=
  match ctxOpt with
  | none => (rawText2, none)
  | some ctx =>
    let isSelfContainedBracket :=
      rawText2.head? = some '[' ∧ rawText2.getLast? = some ']'
    if isSelfContainedBracket then
      if jsToUpperStr rawText2 = '[' :: jsToUpperStr ctx ++ [']'] then
        (rawText2, none)
      else (rawText2, some ctx)
    else
      if ('[' :: jsToUpperStr ctx ++ [']']).isPrefixOf (jsToUpperStr rawText2) then
        (rawText2, some ctx)
      else ('[' :: ctx ++ ']' :: ' ' :: rawText2, some ctx)

/-- The final guarded push of `_finalizeAndAddCue`: the cue is appended
only if its text does not trim to nothing. -/
def pushCue (st : ParsingState) (cueToAdd : Cue) : ParsingState :=
  if jsTrim cueToAdd.raw = [] then st else { st with cues := st.cues ++ [cueToAdd] }

/-- The branch cascade of `_finalizeAndAddCue` (everything up to the
final `state.currentCue = null`). -/
def finalizeBody (state : ParsingState) : ParsingState :=
  match state.currentCue with
  | none => state
  | some cc =>
    if cc.raw = [] ∨ jsTrim cc.raw = [] then state
    else if stripNull (jsTrim cc.raw) = [] ∧ characterToUseOf cc = none then state
    else
      match characterToUseOf cc with
      | some ch =>
        pushCue { state with currentSceneContext := none }
          (dialogueCueOf ch (stripNull (jsTrim cc.raw)))
      | none =>
        pushCue
          { state with
              currentSceneContext :=
                (scenePairOf state.currentSceneContext (stripNull (jsTrim cc.raw))).2 }
          ⟨(scenePairOf state.currentSceneContext (stripNull (jsTrim cc.raw))).1, none⟩

/-- `_finalizeAndAddCue`. -/
def finalizeAndAddCue (state : ParsingState) : ParsingState :=
  { finalizeBody state with currentCue := none }

/-- The category `_processLine` assigns to one line (its cascade of regex
tests is state-independent; the fallback cases are resolved against the
state afterwards). -/
inductive LineClass : Type where
  | credit : LineClass
  | skip : LineClass
  | sceneHeader : Str → LineClass
  | movieSpeaker : Str → LineClass
  | cueStart : Option Str → LineClass
  | continuation : LineClass
deriving DecidableEq, Repr

/-- The classification cascade of `_processLine`: credit lines, then
footer/blank/movie lines, then scene headers, then movie-speaker labels
(tested against the original line), then cue starts (tested against the
trimmed line), else continuation.  `sceneHeader`/`movieSpeaker` carry
capture group 1; `cueStart` carries the optional capture group 1. -/
def classifyLine (originalLine trimmedLine : Str) : LineClass :=
  if reTest true creditLineRe trimmedLine then .credit
  else if trimmedLine = [] ∨ reTest false footerRe originalLine ∨
          reTest false movieLineRe originalLine then .skip
  else match (mall false sceneHeaderRe trimmedLine []).head?.bind (fun o => capLookup o.2 1) with
  | some inner => .sceneHeader inner
  | none =>
    match (mall false movieSpeakerRe originalLine []).head?.bind (fun o => capLookup o.2 1) with
    | some name => .movieSpeaker name
    | none =>
      match (mall false cueStartRe trimmedLine []).head? with
      | some o => .cueStart (capLookup o.2 1)
      | none => .continuation

/-- `_processLine`. -/
def processLine (originalLine trimmedLine : Str) (state : ParsingState) : ParsingState :=
  match classifyLine originalLine trimmedLine with
  | .credit =>
    let st := finalizeAndAddCue state
    { st with currentCue := none, pendingMovieSpeaker := none, currentSceneContext := none }
  | .skip =>
    let st := finalizeAndAddCue state
    { st with currentCue := none }
  | .sceneHeader inner =>
    let st := finalizeAndAddCue state
    { st with pendingMovieSpeaker := none,
              currentSceneContext := some (collapseWs (jsTrim inner)),
              currentCue := none }
  | .movieSpeaker name =>
    let st := finalizeAndAddCue state
    { st with pendingMovieSpeaker := some (jsTrim name), currentCue := none }
  | .cueStart g1 =>
    let st := finalizeAndAddCue state
    let matchedCharacterName : Option Str :=
      match g1 with
      | some s => if s = [] then none else some (jsTrim s)
      | none => none
    { st with currentCue := some ⟨trimmedLine, matchedCharacterName⟩,
              pendingMovieSpeaker := none }
  | .continuation =>
    match state.pendingMovieSpeaker with
    | some pms =>
      let st := finalizeAndAddCue state
      { st with currentCue := some ⟨trimmedLine, some pms⟩, pendingMovieSpeaker := none }
    | none =>
      match state.currentCue with
      | some cc => { state with currentCue := some { cc with raw := cc.raw ++ ' ' :: trimmedLine } }
      | none =>
        let st := finalizeAndAddCue state
        { st with currentCue := some ⟨trimmedLine, none⟩ }

/-- Process a list of lines in file order (each line is passed to
`_processLine` together with its trimmed form). -/
def processLines (lines : List Str) (state : ParsingState) : ParsingState :=
  lines.foldl (fun st line => processLine line (jsTrim line) st) state

/-- The pure core of `parseTranscript`: split the file content on newlines,
run the state machine, finalize the last cue, and return the cues. -/
def parseLines (content : Str) : List Cue :=
  (finalizeAndAddCue (processLines (splitNl content) initState)).cues

/-! ### The cache service (`src/services/cache.ts`)

Time is made explicit: each operation takes `now` (epoch milliseconds,
the value `Date.now()` returns inside that operation).  The file system
behind `fileUtils` is an external collaborator and is modelled as an
association list from file paths to the stored cache items
(`writeJsonFile` stores, `readJsonFile` retrieves, `deleteFile` removes,
`fileExists` is key membership); the sha-256 of `crypto` is likewise
external and kept as an abstract function `hashKey` carried by the
service instance. -/

structure CacheItem (V : Type) where
  value : V
  expiry : Option Nat
deriving DecidableEq, Repr

/-- The persisted-file tier: path to stored item. -/
abbrev CacheFs (V : Type) := List (Str × CacheItem V)

def assocGet {α : Type} (k : Str) (l : List (Str × α)) : Option α :=
  (l.find? (fun p => decide (p.1 = k))).map (·.2)

def assocSet {α : Type} (k : Str) (v : α) (l : List (Str × α)) : List (Str × α) :=
  (k, v) :: l.filter (fun p => decide (p.1 ≠ k))

def assocDel {α : Type} (k : Str) (l : List (Str × α)) : List (Str × α) :=
  l.filter (fun p => decide (p.1 ≠ k))

/-- A `CacheService` instance.  `nspace` is the `namespace` field;
`hashKey` stands for the sha-256 hex digest of the key. -/
structure CacheService (V : Type) where
  nspace : Str
  store : List (Str × CacheItem V)
  defaultTtlSeconds : Option Nat
  persistentCacheEnabled : Bool
  persistentCachePath : Option Str
  hashKey : Str → Str

def CacheService.getFullKey {V : Type} (c : CacheService V) (key : Str) : Str :=
  c.nspace ++ ':' :: key

/-- `path.join(persistentCachePath, hashedKey + ".json")`. -/
def CacheService.getFilePath {V : Type} (c : CacheService V) (hashedKey : Str) : Option Str :=
  c.persistentCachePath.map (fun p => p ++ '/' :: (hashedKey ++ ".json".data))

/-- Truthy-and-elapsed test for an optional expiry: JS
`item.expiry && item.expiry < Date.now()` (an expiry of `0` is falsy). -/
def staleAt (e : Option Nat) (now : Nat) : Bool :=
  match e with
  | none => false
  | some t => decide (0 < t) && decide (t < now)

/-- `CacheService.get`: returns the value (or `none`) together with the
updated instance and file tier. -/
def CacheService.get {V : Type} (c : CacheService V) (fs : CacheFs V) (key : Str)
    (now : Nat) : Option V × CacheService V × CacheFs V :=
  let fullKey := c.getFullKey key
  match assocGet fullKey c.store with
  | some memItem =>
    if staleAt memItem.expiry now then
      let c' := { c with store := assocDel fullKey c.store }
      if c.persistentCacheEnabled then
        match c.getFilePath (c.hashKey key) with
        | some filePath =>
          if (assocGet filePath fs).isSome then (none, c', assocDel filePath fs)
          else (none, c', fs)
        | none => (none, c', fs)
      else (none, c', fs)
    else (some memItem.value, c, fs)
  | none =>
    if c.persistentCacheEnabled then
      match c.getFilePath (c.hashKey key) with
      | some filePath =>
        match assocGet filePath fs with
        | some fileCacheItem =>
          if staleAt fileCacheItem.expiry now then (none, c, assocDel filePath fs)
          else (some fileCacheItem.value,
                { c with store := assocSet fullKey fileCacheItem c.store }, fs)
        | none => (none, c, fs)
      | none => (none, c, fs)
    else (none, c, fs)

/-- The cache item `CacheService.set` builds: `ttlToUse` is the explicit
ttl when given, else the instance default, and a truthy positive ttl
yields `expiry = now + ttl * 1000`. -/
def CacheService.itemFor {V : Type} (c : CacheService V) (value : V)
    (ttlSeconds : Option Nat) (now : Nat) : CacheItem V :=
  let ttlToUse := match ttlSeconds with | some t => some t | none => c.defaultTtlSeconds
  match ttlToUse with
  | some t => if 0 < t then ⟨value, some (now + t * 1000)⟩ else ⟨value, none⟩
  | none => ⟨value, none⟩

/-- `CacheService.set`. -/
def CacheService.set {V : Type} (c : CacheService V) (fs : CacheFs V) (key : Str)
    (value : V) (ttlSeconds : Option Nat) (now : Nat) : CacheService V × CacheFs V :=
  let fullKey := c.getFullKey key
  let cacheItem : CacheItem V := c.itemFor value ttlSeconds now
  let c' := { c with store := assocSet fullKey cacheItem c.store }
  if c.persistentCacheEnabled then
    match c.getFilePath (c.hashKey key) with
    | some filePath => (c', assocSet filePath cacheItem fs)
    | none => (c', fs)
  else (c', fs)

/-- `CacheService.has`: reports presence; never touches the in-memory
store, but deletes a stale persisted file it discovers. -/
def CacheService.has {V : Type} (c : CacheService V) (fs : CacheFs V) (key : Str)
    (now : Nat) : Bool × CacheFs V :=
  let fullKey := c.getFullKey key
  match assocGet fullKey c.store with
  | some memItem =>
    if staleAt memItem.expiry now then (false, fs) else (true, fs)
  | none =>
    if c.persistentCacheEnabled then
      match c.getFilePath (c.hashKey key) with
      | some filePath =>
        match assocGet filePath fs with
        | some fileCacheItem =>
          if !(staleAt fileCacheItem.expiry now) then (true, fs)
          else (false, assocDel filePath fs)
        | none => (false, fs)
      | none => (false, fs)
    else (false, fs)

/-! ### The transcript engine and search layer

`fileUtils.readFile` is an external collaborator: the world carries a
read-only function from paths to `Except` (an `error` models a rejected
read whose error value propagates as a thrown exception).
`fileUtils.listFilesRecursive` is modelled by the world's `dirFiles`
list.  The world also carries the mandatory `"transcripts"` cache
instance, the persisted tier and the current time. -/

structure PWorld where
  cache : CacheService (List Cue)
  cacheFs : CacheFs (List Cue)
  fs : Str → Except Str Str
  dirFiles : List Str
  now : Nat

/-- `parseTranscript`: cache lookup under the file's basename, then (on a
miss) read the file, run the line state machine, and cache the result
(with no per-call TTL, hence the instance default). -/
def parseTranscript (w : PWorld) (filePath : Str) : Except Str (List Cue) × PWorld :=
  let cacheKey := jsBasename filePath
  match w.cache.get w.cacheFs cacheKey w.now with
  | (some cachedCues, c', fs') => (.ok cachedCues, { w with cache := c', cacheFs := fs' })
  | (none, c', fs') =>
    match w.fs filePath with
    | .error e => (.error e, { w with cache := c', cacheFs := fs' })
    | .ok content =>
      let cues := parseLines content
      let (c'', fs'') := c'.set fs' cacheKey cues none w.now
      (.ok cues, { w with cache := c'', cacheFs := fs'' })

/-- `getTranscriptFiles`: every file under the directory ending in
`.txt`. -/
def getTranscriptFiles (w : PWorld) : List Str :=
  w.dirFiles.filter (fun f => ".txt".data.isSuffixOf f)

structure CueWithContext where
  cue : Cue
  before : List Cue
  after : List Cue
deriving DecidableEq, Repr

/-- The per-file match collection of `_searchCuesByFilter`: for each
matching index `i`, `before` is `fileCues.slice(max(0, i-n), i)` and
`after` is `fileCues.slice(i+1, min(len, i+1+n))`. -/
def matchesInFile (fileCues : List Cue) (filterFn : Cue → Bool) (n : Nat) :
    List CueWithContext :=
  (List.range fileCues.length).filterMap (fun i =>
    match fileCues[i]? with
    | some cue =>
      if filterFn cue then
        some ⟨cue, (fileCues.take i).drop (i - n), (fileCues.take (min fileCues.length (i + 1 + n))).drop (i + 1)⟩
      else none
    | none => none)

/-- The file loop of `_searchCuesByFilter`; an error from any single-file
parse aborts the loop and propagates. -/
def searchLoop (w : PWorld) (files : List Str) (filterFn : Cue → Bool) (n : Nat) :
    Except Str (List CueWithContext) × PWorld :=
  match files with
  | [] => (.ok [], w)
  | f :: rest =>
    match parseTranscript w f with
    | (.error e, w') => (.error e, w')
    | (.ok fileCues, w') =>
      match searchLoop w' rest filterFn n with
      | (.error e, w'') => (.error e, w'')
      | (.ok acc, w'') => (.ok (matchesInFile fileCues filterFn n ++ acc), w'')

/-- `_searchCuesByFilter` (the `contextLines` argument defaults to 0 when
the caller passes `undefined`, and is clamped to non-negative). -/
def searchCuesByFilter (w : PWorld) (filterFn : Cue → Bool) (contextLines : Option Int) :
    Except Str (List CueWithContext) × PWorld :=
  let numContextLines : Nat := (max 0 (contextLines.getD 0)).toNat
  searchLoop w (getTranscriptFiles w) filterFn numContextLines

/-- A search request: the pattern is carried as the regex the JS `RegExp`
constructor produces from `config.pattern`, plus the optional
`contextLines`. -/
structure TranscriptSearchConfig where
  patRe : Re
  contextLines : Option Int

/-- `TranscriptSearchResult`. -/
structure TranscriptSearchResult where
  cues : List CueWithContext
  total : Nat
  patRe : Re
  contextLinesUsed : Option Int

/-- The filter predicate `searchDialog` installs: a falsy (absent or
empty) character never matches; otherwise the anchored degraded pattern
is tested case-insensitively against the character. -/
def searchDialogFilter (pat : Re) (cue : Cue) : Bool :=
  match cue.character with
  | none => false
  | some ch => if ch = [] then false else reTest true (searchDialogRe pat) ch

/-- `searchDialog`. -/
def searchDialog (w : PWorld) (config : TranscriptSearchConfig) :
    Except Str TranscriptSearchResult × PWorld :=
  match searchCuesByFilter w (searchDialogFilter config.patRe) config.contextLines with
  | (.error e, w') => (.error e, w')
  | (.ok matched, w') =>
    (.ok ⟨matched, matched.length, config.patRe, config.contextLines⟩, w')

/-- `_extractTextFromCue`. -/
def extractTextFromCue (cue : Cue) : Str :=
  match cue.character with
  | some ch =>
    let expectedPrefix := ch ++ [':']
    if (jsToUpperStr expectedPrefix).isPrefixOf (jsToUpperStr cue.raw) then
      jsTrim (cue.raw.drop expectedPrefix.length)
    else cue.raw
  | none => cue.raw

/-- The filter predicate `searchKeyword` installs: the (unanchored,
case-insensitive) pattern is tested against the extracted text. -/
def searchKeywordFilter (pat : Re) (cue : Cue) : Bool :=
  reTestAnywhere true pat (extractTextFromCue cue)

/-- `searchKeyword`. -/
def searchKeyword (w : PWorld) (config : TranscriptSearchConfig) :
    Except Str TranscriptSearchResult × PWorld :=
  match searchCuesByFilter w (searchKeywordFilter config.patRe) config.contextLines with
  | (.error e, w') => (.error e, w')
  | (.ok matched, w') =>
    (.ok ⟨matched, matched.length, config.patRe, config.contextLines⟩, w')

/-! ### Claim theorems -/

set_option maxRecDepth 100000

/-- C3: parsing the three lines `"10  BRIDGE  10"`, `"The bridge crew
watches."`, `"PICARD: Engage."` emits exactly two cues, in order: a
speaker-less cue with text `"[BRIDGE] The bridge crew watches."`, then a
cue with speaker `"PICARD"` and text `"PICARD: Engage."`. -/
theorem c3_scene_context_propagation :
    parseLines "10  BRIDGE  10\nThe bridge crew watches.\nPICARD: Engage.".data =
      [⟨"[BRIDGE] The bridge crew watches.".data, none⟩,
       ⟨"PICARD: Engage.".data, some "PICARD".data⟩] := by
  decide

/-- C2 (failing input): the claim says every line made of an upper-case
speaker name over letters, digits, spaces, commas, apostrophes, hyphens,
periods and parentheses followed by a colon is classified as cue-start
form (a).  The line `"MAN (OC): hello"` is such a line (name
`"MAN (OC)"`), yet the code classifies it as a continuation: the
`SPEAKER_CORE_CHARSET` string literal loses its backslash, so the class
contains no whitespace, and the degraded "optional parenthetical
annotation" group cannot consume a closing parenthesis.  (The claim's own
example `"LA FORGE: Aye, sir."` still works, because the accidental
capturing group `([^)]*?)` absorbs a space-containing remainder that has
no closing parenthesis.) -/
theorem c2_speaker_charset_failing_input :
    classifyLine "MAN (OC): hello".data "MAN (OC): hello".data = LineClass.continuation ∧
    classifyLine "LA FORGE: Aye, sir.".data "LA FORGE: Aye, sir.".data =
      LineClass.cueStart (some "LA FORGE".data) := by
  constructor
  · decide
  · decide

/-- C6 (failing input): `searchDialog`'s own doc comment promises that a
speaker equal to the base name followed by a parenthesized annotation
such as `"(V.O.)"` matches, but the regex built from an untagged template
literal degrades (`\s` to `s`, `\(` to a bare parenthesis), so
`"PICARD (V.O.)"` does **not** match the pattern `"PICARD"` — while the
accidental `([^)]*?)` group makes `"PICARDX"` match it. -/
theorem c6_searchDialog_failing_input :
    searchDialogFilter (rstr "PICARD")
        ⟨"PICARD: Engage.".data, some "PICARD (V.O.)".data⟩ = false ∧
    searchDialogFilter (rstr "PICARD")
        ⟨"PICARDX: Engage.".data, some "PICARDX".data⟩ = true := by
  constructor
  · decide
  · decide

/-! ### The finalization invariant (C8, C1) -/

/-- The invariant of an emitted cue: non-blank text, and for dialogue the
text carries the `"SPEAKER: "` prefix. -/
def cueOk (c : Cue) : Prop :=
  jsTrim c.raw ≠ [] ∧ ∀ ch, c.character = some ch → ∃ t, c.raw = ch ++ ':' :: ' ' :: t

theorem pushCue_shape (st : ParsingState) (c : Cue) :
    (pushCue st c).cues = st.cues ∨
    (jsTrim c.raw ≠ [] ∧ (pushCue st c).cues = st.cues ++ [c]) := by
  unfold pushCue
  split
  · left; rfl
  · right; exact ⟨by assumption, rfl⟩

theorem dialogueCueOf_shape (ch r : Str) :
    (∃ t, (dialogueCueOf ch r).raw = ch ++ ':' :: ' ' :: t) ∧
    (dialogueCueOf ch r).character = some ch := by
  unfold dialogueCueOf
  exact ⟨⟨_, rfl⟩, rfl⟩

theorem finalizeAndAddCue_cues (st : ParsingState) :
    (finalizeAndAddCue st).cues = (finalizeBody st).cues := rfl

theorem finalize_cues_shape (st : ParsingState) :
    (finalizeAndAddCue st).cues = st.cues ∨
    ∃ c, cueOk c ∧ (finalizeAndAddCue st).cues = st.cues ++ [c] := by
  rw [finalizeAndAddCue_cues]
  cases hcc : st.currentCue with
  | none =>
    left
    simp only [finalizeBody, hcc]
  | some cc =>
    simp only [finalizeBody, hcc]
    split
    · left; rfl
    · split
      · left; rfl
      · split
        · rename_i ch hch
          rcases pushCue_shape { st with currentCue := some cc, currentSceneContext := none }
              (dialogueCueOf ch (stripNull (jsTrim cc.raw))) with h | ⟨hne, h⟩
          · left; exact h
          · right
            obtain ⟨⟨t, ht⟩, hchr⟩ := dialogueCueOf_shape ch (stripNull (jsTrim cc.raw))
            exact ⟨_, ⟨hne, fun ch' hch' => ⟨t, by rw [hchr] at hch'; cases hch'; exact ht⟩⟩, h⟩
        · rcases pushCue_shape
              { st with currentCue := some cc, currentSceneContext :=
                  (scenePairOf st.currentSceneContext (stripNull (jsTrim cc.raw))).2 }
              ⟨(scenePairOf st.currentSceneContext (stripNull (jsTrim cc.raw))).1, none⟩ with
            h | ⟨hne, h⟩
          · left; exact h
          · right
            exact ⟨_, ⟨hne, fun ch' hch' => by simp at hch'⟩, h⟩

theorem finalize_cues_inv (st : ParsingState) (h : ∀ c ∈ st.cues, cueOk c) :
    ∀ c ∈ (finalizeAndAddCue st).cues, cueOk c := by
  rcases finalize_cues_shape st with hs | ⟨c0, hc0, hs⟩
  · rw [hs]; exact h
  · rw [hs]
    intro c hc
    rcases List.mem_append.mp hc with h1 | h2
    · exact h _ h1
    · rw [List.mem_singleton.mp h2]; exact hc0

theorem processLine_cues_inv (o t : Str) (st : ParsingState)
    (h : ∀ c ∈ st.cues, cueOk c) :
    ∀ c ∈ (processLine o t st).cues, cueOk c := by
  unfold processLine
  split
  · exact finalize_cues_inv st h
  · exact finalize_cues_inv st h
  · exact finalize_cues_inv st h
  · exact finalize_cues_inv st h
  · exact finalize_cues_inv st h
  · split
    · exact finalize_cues_inv st h
    · split
      · exact h
      · exact finalize_cues_inv st h

theorem processLines_cues_inv (lines : List Str) (st : ParsingState)
    (h : ∀ c ∈ st.cues, cueOk c) :
    ∀ c ∈ (processLines lines st).cues, cueOk c := by
  induction lines generalizing st with
  | nil => exact h
  | cons l rest ih =>
    exact ih (processLine l (jsTrim l) st) (processLine_cues_inv l (jsTrim l) st h)

/-- C8: every cue in the emitted sequence of any parsed content has
non-blank text, and dialogue text starts with the speaker name followed
by `": "`. -/
theorem c8_cue_invariant (content : Str) (cue : Cue) (hmem : cue ∈ parseLines content) :
    jsTrim cue.raw ≠ [] ∧
    ∀ ch, cue.character = some ch → ∃ t, cue.raw = ch ++ ':' :: ' ' :: t := by
  have : ∀ c ∈ parseLines content, cueOk c := by
    unfold parseLines
    exact finalize_cues_inv _ (processLines_cues_inv _ _ (by intro c hc; simp [initState] at hc))
  exact this cue hmem

/-- C8 witness: the invariant at a concrete input. -/
theorem c8_cue_invariant_witness :
    jsTrim (⟨"PICARD: Engage.".data, some "PICARD".data⟩ : Cue).raw ≠ [] ∧
    ∀ ch, (⟨"PICARD: Engage.".data, some "PICARD".data⟩ : Cue).character = some ch →
      ∃ t, (⟨"PICARD: Engage.".data, some "PICARD".data⟩ : Cue).raw = ch ++ ':' :: ' ' :: t :=
  c8_cue_invariant "10  BRIDGE  10\nThe bridge crew watches.\nPICARD: Engage.".data
    ⟨"PICARD: Engage.".data, some "PICARD".data⟩ (by decide)

/-! ### Engine lemmas (C1) -/

/-- Matching only ever consumes a prefix: every outcome's rest is a
suffix of the input. -/
theorem mall_consumed (ic : Bool) (r : Re) :
    ∀ s caps o, o ∈ mall ic r s caps → ∃ pre, s = pre ++ o.1 := by
  induction r with
  | eps =>
    intro s caps o ho
    simp only [mall, List.mem_singleton] at ho
    exact ⟨[], by subst ho; rfl⟩
  | lit a =>
    intro s caps o ho
    match s with
    | [] => simp [mall] at ho
    | c :: rest =>
      simp only [mall] at ho
      split at ho
      · simp only [List.mem_singleton] at ho
        exact ⟨[c], by subst ho; rfl⟩
      · simp at ho
  | cls neg rs =>
    intro s caps o ho
    match s with
    | [] => simp [mall] at ho
    | c :: rest =>
      simp only [mall] at ho
      split at ho
      · simp only [List.mem_singleton] at ho
        exact ⟨[c], by subst ho; rfl⟩
      · simp at ho
  | seq a b iha ihb =>
    intro s caps o ho
    simp only [mall, List.mem_flatMap] at ho
    obtain ⟨o1, h1, h2⟩ := ho
    obtain ⟨p1, hp1⟩ := iha s caps o1 h1
    obtain ⟨p2, hp2⟩ := ihb o1.1 o1.2 o h2
    exact ⟨p1 ++ p2, by rw [hp1, hp2, List.append_assoc]⟩
  | alt a b iha ihb =>
    intro s caps o ho
    simp only [mall, List.mem_append] at ho
    rcases ho with h | h
    · exact iha s caps o h
    · exact ihb s caps o h
  | opt r ih =>
    intro s caps o ho
    simp only [mall, List.mem_append, List.mem_singleton] at ho
    rcases ho with h | h
    · exact ih s caps o h
    · exact ⟨[], by subst h; rfl⟩
  | starCls lz neg rs =>
    intro s caps o ho
    simp only [mall, List.mem_map] at ho
    obtain ⟨i, _, hi⟩ := ho
    exact ⟨s.take i, by rw [← hi]; exact (List.take_append_drop i s).symm⟩
  | grp i r ih =>
    intro s caps o ho
    simp only [mall, List.mem_map] at ho
    obtain ⟨o', h1, h2⟩ := ho
    obtain ⟨p, hp⟩ := ih s caps o' h1
    exact ⟨p, by rw [← h2]; exact hp⟩
  | eol =>
    intro s caps o ho
    simp only [mall] at ho
    split at ho
    · simp only [List.mem_singleton] at ho
      exact ⟨[], by subst ho; rfl⟩
    · simp at ho

/-- The capture-group indices syntactically present in a pattern. -/
def Re.grpIdxs : Re → List Nat
  | .seq a b => a.grpIdxs ++ b.grpIdxs
  | .alt a b => a.grpIdxs ++ b.grpIdxs
  | .opt r => r.grpIdxs
  | .grp i r => i :: r.grpIdxs
  | _ => []

theorem capLookup_cons (j : Nat) (v : Str) (caps : Caps) (i : Nat) :
    capLookup ((j, v) :: caps) i = if j = i then some v else capLookup caps i := by
  simp only [capLookup, List.find?]
  by_cases h : j = i
  · simp [h]
  · simp [beq_eq_false_iff_ne.mpr h, if_neg h]

/-- A capture register not written by any group of the pattern survives
matching unchanged. -/
theorem mall_capLookup_stable (ic : Bool) (r : Re) (i : Nat) (hni : i ∉ r.grpIdxs) :
    ∀ s caps o, o ∈ mall ic r s caps → capLookup o.2 i = capLookup caps i := by
  induction r with
  | eps =>
    intro s caps o ho
    simp only [mall, List.mem_singleton] at ho
    rw [ho]
  | lit a =>
    intro s caps o ho
    match s with
    | [] => simp [mall] at ho
    | c :: rest =>
      simp only [mall] at ho
      split at ho
      · simp only [List.mem_singleton] at ho; rw [ho]
      · simp at ho
  | cls neg rs =>
    intro s caps o ho
    match s with
    | [] => simp [mall] at ho
    | c :: rest =>
      simp only [mall] at ho
      split at ho
      · simp only [List.mem_singleton] at ho; rw [ho]
      · simp at ho
  | seq a b iha ihb =>
    intro s caps o ho
    simp only [Re.grpIdxs, List.mem_append] at hni
    push_neg at hni
    simp only [mall, List.mem_flatMap] at ho
    obtain ⟨o1, h1, h2⟩ := ho
    rw [ihb hni.2 o1.1 o1.2 o h2, iha hni.1 s caps o1 h1]
  | alt a b iha ihb =>
    intro s caps o ho
    simp only [Re.grpIdxs, List.mem_append] at hni
    push_neg at hni
    simp only [mall, List.mem_append] at ho
    rcases ho with h | h
    · exact iha hni.1 s caps o h
    · exact ihb hni.2 s caps o h
  | opt r ih =>
    intro s caps o ho
    simp only [Re.grpIdxs] at hni
    simp only [mall, List.mem_append, List.mem_singleton] at ho
    rcases ho with h | h
    · exact ih hni s caps o h
    · rw [h]
  | starCls lz neg rs =>
    intro s caps o ho
    simp only [mall, List.mem_map] at ho
    obtain ⟨j, _, hj⟩ := ho
    rw [← hj]
  | grp j r ih =>
    intro s caps o ho
    simp only [Re.grpIdxs, List.mem_cons] at hni
    push_neg at hni
    simp only [mall, List.mem_map] at ho
    obtain ⟨o', h1, h2⟩ := ho
    rw [← h2]
    simp only [capLookup_cons]
    rw [if_neg (by exact fun he => hni.1 he.symm)]
    exact ih hni.2 s caps o' h1
  | eol =>
    intro s caps o ho
    simp only [mall] at ho
    split at ho
    · simp only [List.mem_singleton] at ho; rw [ho]
    · simp at ho

theorem mall_alt_eq (ic : Bool) (a b : Re) (s : Str) (caps : Caps) :
    mall ic (.alt a b) s caps = mall ic a s caps ++ mall ic b s caps := rfl

theorem mall_seq_eq (ic : Bool) (a b : Re) (s : Str) (caps : Caps) :
    mall ic (.seq a b) s caps = (mall ic a s caps).flatMap (fun o => mall ic b o.1 o.2) := rfl

theorem mall_grp_eq (ic : Bool) (i : Nat) (r : Re) (s : Str) (caps : Caps) :
    mall ic (.grp i r) s caps =
      (mall ic r s caps).map (fun o => (o.1, (i, s.take (s.length - o.1.length)) :: o.2)) := rfl

/-- Any value captured by group 1 of `CUE_START` (the speaker tag) is
non-empty and starts with an upper-case letter: group 1 wraps
`SPEAKER_TAG_PATTERN_STRING`, whose first atom is the class `[A-Z]`. -/
theorem cueStart_cap1_shape (s : Str) (o : Str × Caps)
    (ho : o ∈ mall false cueStartRe s []) (S : Str) (hS : capLookup o.2 1 = some S) :
    ∃ c rest, S = c :: rest ∧ 'A' ≤ c ∧ c ≤ 'Z' := by
  have hre : cueStartRe =
      .seq wsStar (.alt cueStartAltA (.alt cueStartAltB (.alt cueStartAltC cueStartAltD))) := rfl
  rw [hre, mall_seq_eq] at ho
  obtain ⟨o1, h1, h2⟩ := List.mem_flatMap.mp ho
  have hcap1 : capLookup o1.2 1 = none :=
    (mall_capLookup_stable false wsStar 1 (by decide) s [] o1 h1).trans rfl
  rw [mall_alt_eq] at h2
  rcases List.mem_append.mp h2 with hA | hBCD
  · -- alternative (a)
    have hAeq : cueStartAltA =
        .seq (.opt (rseq [.lit '(', lazyNotCloseParen, .lit ')', wsStar]))
          (.seq (.grp 1 speakerTag) (.seq wsStar (.seq (.lit ':') .eps))) := rfl
    rw [hAeq, mall_seq_eq] at hA
    obtain ⟨oAside, hAside, hA2⟩ := List.mem_flatMap.mp hA
    have hcapAside : capLookup oAside.2 1 = none :=
      (mall_capLookup_stable false _ 1 (by decide) o1.1 o1.2 oAside hAside).trans hcap1
    rw [mall_seq_eq] at hA2
    obtain ⟨oG, hG1, hG2⟩ := List.mem_flatMap.mp hA2
    have hcapO : capLookup o.2 1 = capLookup oG.2 1 :=
      mall_capLookup_stable false _ 1 (by decide) oG.1 oG.2 o hG2
    rw [mall_grp_eq] at hG1
    obtain ⟨oI, hI, hGeq⟩ := List.mem_map.mp hG1
    have hcapG : capLookup oG.2 1 =
        some (oAside.1.take (oAside.1.length - oI.1.length)) := by
      rw [← hGeq]
      simp [capLookup_cons]
    have hSval : S = oAside.1.take (oAside.1.length - oI.1.length) := by
      rw [hcapO, hcapG] at hS
      exact (Option.some.injEq _ _ ▸ hS).symm
    -- speakerTag starts with the class [A-Z]
    have hTag : speakerTag =
        .seq (.cls false upperRanges)
          (.seq (.starCls false false speakerCoreRanges)
            (.seq (parenOptBroken 2) (.seq bracketOptBroken .eps))) := rfl
    rw [hTag, mall_seq_eq] at hI
    obtain ⟨oc, hcls, hrest⟩ := List.mem_flatMap.mp hI
    match hs3 : oAside.1 with
    | [] => rw [hs3] at hcls; simp [mall] at hcls
    | c :: t =>
      rw [hs3] at hcls
      simp only [mall] at hcls
      split at hcls
      · rename_i hcmatch
        simp only [List.mem_singleton] at hcls
        obtain ⟨pre, hpre⟩ := mall_consumed false _ oc.1 oc.2 _ hrest
        have hlen : oI.1.length ≤ t.length := by
          rw [hcls] at hpre
          simp only at hpre
          rw [hpre]
          simp
        have hk : (c :: t).length - oI.1.length = (t.length - oI.1.length) + 1 := by
          simp only [List.length_cons]
          omega
        refine ⟨c, t.take (t.length - oI.1.length), ?_, ?_, ?_⟩
        · rw [hSval, hs3, hk, List.take_succ_cons]
        · have hb := hcmatch
          simp [clsMatch, clsHit, charIn, upperRanges] at hb
          exact hb.1
        · have hb := hcmatch
          simp [clsMatch, clsHit, charIn, upperRanges] at hb
          exact hb.2
      · simp at hcls
  · -- alternatives (b), (c), (d) write only groups 3, 4, 5
    have : capLookup o.2 1 = none :=
      (mall_capLookup_stable false _ 1 (by decide) o1.1 o1.2 o hBCD).trans hcap1
    rw [this] at hS
    exact absurd hS (by simp)

/-! ### Trim lemmas -/

theorem jsTrim_eq_rdrop (s : Str) :
    jsTrim s = List.rdropWhile jsIsWs (List.dropWhile jsIsWs s) := rfl

theorem dropWhile_head_not (p : Char → Bool) (l : List Char) (c : Char) (rest : List Char)
    (h : l.dropWhile p = c :: rest) : p c = false := by
  induction l with
  | nil => simp [List.dropWhile] at h
  | cons a t ih =>
    rw [List.dropWhile_cons] at h
    split at h
    · exact ih h
    · cases h
      rename_i hpa
      simpa using hpa

theorem jsTrim_head_not_ws (s : Str) (c : Char) (rest : List Char)
    (h : jsTrim s = c :: rest) : jsIsWs c = false := by
  rw [jsTrim_eq_rdrop] at h
  obtain ⟨t, ht⟩ := List.rdropWhile_prefix (p := jsIsWs) (l := List.dropWhile jsIsWs s)
  rw [h] at ht
  exact dropWhile_head_not jsIsWs s c (rest ++ t) (by rw [← ht]; simp)

theorem jsTrim_idem (s : Str) : jsTrim (jsTrim s) = jsTrim s := by
  rw [jsTrim_eq_rdrop (jsTrim s)]
  have hd : List.dropWhile jsIsWs (jsTrim s) = jsTrim s := by
    cases h : jsTrim s with
    | nil => simp
    | cons c rest =>
      rw [List.dropWhile_cons, if_neg (by simp [jsTrim_head_not_ws s c rest h])]
  rw [hd, jsTrim_eq_rdrop, List.rdropWhile_idempotent]

theorem jsTrim_eq_nil_iff (s : Str) : jsTrim s = [] ↔ ∀ x ∈ s, jsIsWs x := by
  rw [jsTrim_eq_rdrop, List.rdropWhile_eq_nil_iff]
  constructor
  · intro h x hx
    rw [← List.takeWhile_append_dropWhile (p := jsIsWs) (l := s)] at hx
    rcases List.mem_append.mp hx with h1 | h2
    · exact List.mem_takeWhile_imp h1
    · exact h x h2
  · intro h x hx
    exact h x (List.dropWhile_sublist jsIsWs |>.mem hx)

theorem jsTrim_ne_nil_of_mem (s : Str) (c : Char) (hc : c ∈ s) (hws : jsIsWs c = false) :
    jsTrim s ≠ [] := by
  intro h
  rw [jsTrim_eq_nil_iff] at h
  rw [h c hc] at hws
  exact absurd hws (by simp)

/-! ### C1: the cue-start line's eventual cue -/

/-- Finalizing a state whose in-progress cue has a trimmed, non-empty
character and non-blank text appends exactly the re-rendered dialogue
cue. -/
theorem finalize_of_ours (st : ParsingState) (raw' ch : Str)
    (hcc : st.currentCue = some ⟨raw', some ch⟩)
    (hch : jsTrim ch = ch) (hchne : ch ≠ []) (hraw : jsTrim raw' ≠ []) :
    ∃ body, (finalizeAndAddCue st).cues =
      st.cues ++ [⟨ch ++ ':' :: ' ' :: body, some ch⟩] := by
  have hrawne : raw' ≠ [] := by
    intro h
    rw [h] at hraw
    exact hraw rfl
  have hchar : characterToUseOf ⟨raw', some ch⟩ = some ch := by
    unfold characterToUseOf
    simp only
    rw [hch, if_neg hchne]
  have hchhead : ∃ c0 t0, ch = c0 :: t0 ∧ jsIsWs c0 = false := by
    cases hh : ch with
    | nil => exact absurd hh hchne
    | cons c0 t0 =>
      exact ⟨c0, t0, rfl, jsTrim_head_not_ws ch c0 t0 (by rw [hch, hh])⟩
  obtain ⟨c0, t0, hch0, hc0ws⟩ := hchhead
  rw [finalizeAndAddCue_cues]
  unfold finalizeBody
  rw [hcc]
  simp only
  rw [if_neg (by simp [hrawne, hraw]), hchar]
  rw [if_neg (by simp)]
  dsimp only
  obtain ⟨t, ht⟩ := (dialogueCueOf_shape ch (stripNull (jsTrim raw'))).1
  have hd2 := (dialogueCueOf_shape ch (stripNull (jsTrim raw'))).2
  refine ⟨t, ?_⟩
  unfold pushCue
  rw [if_neg ?hne]
  case hne =>
    rw [ht]
    refine jsTrim_ne_nil_of_mem _ c0 ?_ hc0ws
    rw [hch0]
    simp
  rcases hdc : dialogueCueOf ch (stripNull (jsTrim raw')) with ⟨r1, c1⟩
  rw [hdc] at ht hd2
  simp only at ht hd2
  rw [ht, hd2]

/-- The emitted cue list only ever grows. -/
theorem finalize_cues_mono (st : ParsingState) :
    ∃ ext, (finalizeAndAddCue st).cues = st.cues ++ ext := by
  rcases finalize_cues_shape st with h | ⟨c, _, h⟩
  · exact ⟨[], by simpa using h⟩
  · exact ⟨[c], h⟩

theorem processLine_cues_mono (o t : Str) (st : ParsingState) :
    ∃ ext, (processLine o t st).cues = st.cues ++ ext := by
  unfold processLine
  split
  · exact finalize_cues_mono st
  · exact finalize_cues_mono st
  · exact finalize_cues_mono st
  · exact finalize_cues_mono st
  · exact finalize_cues_mono st
  · split
    · exact finalize_cues_mono st
    · split
      · exact ⟨[], by simp⟩
      · exact finalize_cues_mono st

theorem processLines_cues_mono (lines : List Str) (st : ParsingState) :
    ∃ ext, (processLines lines st).cues = st.cues ++ ext := by
  induction lines generalizing st with
  | nil => exact ⟨[], by simp [processLines]⟩
  | cons l rest ih =>
    obtain ⟨e1, h1⟩ := processLine_cues_mono l (jsTrim l) st
    obtain ⟨e2, h2⟩ := ih (processLine l (jsTrim l) st)
    exact ⟨e1 ++ e2, by rw [show processLines (l :: rest) st =
      processLines rest (processLine l (jsTrim l) st) from rfl, h2, h1, List.append_assoc]⟩

/-- Eliminating a cue-start classification: the committed match outcome
and its group-1 capture, plus the fact that the trimmed line is
non-empty. -/
theorem classify_cueStart_elim (o t : Str) (g : Option Str)
    (h : classifyLine o t = .cueStart g) :
    t ≠ [] ∧ ∃ oo ∈ mall false cueStartRe t [], capLookup oo.2 1 = g := by
  unfold classifyLine at h
  split at h
  · exact absurd h (by simp)
  · split at h
    · exact absurd h (by simp)
    · split at h
      · exact absurd h (by simp)
      · split at h
        · exact absurd h (by simp)
        · split at h
          · rename_i o2 ho2
            cases h
            refine ⟨?_, o2, ?_, rfl⟩
            · intro ht
              exact absurd (Or.inl ht) (by assumption)
            · cases hm : mall false cueStartRe t [] with
              | nil => rw [hm] at ho2; simp at ho2
              | cons a l =>
                rw [hm] at ho2
                simp only [List.head?] at ho2
                cases ho2
                simp
          · exact absurd h (by simp)

/-- After a cue-start line, its in-progress cue is「ours」: the cue list is
unchanged since the base and the current cue carries the captured
speaker. -/
def oursPending (base : List Cue) (ch : Str) (st : ParsingState) : Prop :=
  st.cues = base ∧ ∃ raw', st.currentCue = some ⟨raw', some ch⟩ ∧ jsTrim raw' ≠ []

/-- The cue for the cue-start line has been emitted: it is the first cue
appended after the base, with the speaker and the speaker-prefixed
text. -/
def oursEmitted (base : List Cue) (ch : Str) (st : ParsingState) : Prop :=
  ∃ body rest, st.cues = base ++ ⟨ch ++ ':' :: ' ' :: body, some ch⟩ :: rest

theorem jsTrim_ne_nil_elim (s : Str) (h : jsTrim s ≠ []) :
    ∃ x ∈ s, jsIsWs x = false := by
  by_contra hc
  push_neg at hc
  exact h ((jsTrim_eq_nil_iff s).mpr (fun x hx => by
    have := hc x hx
    cases hb : jsIsWs x
    · exact absurd hb this
    · rfl))

theorem oursEmitted_mono (base : List Cue) (ch : Str) (st : ParsingState)
    (ext : List Cue) (st' : ParsingState) (hext : st'.cues = st.cues ++ ext)
    (h : oursEmitted base ch st) : oursEmitted base ch st' := by
  obtain ⟨body, rest, hb⟩ := h
  exact ⟨body, rest ++ ext, by rw [hext, hb]; simp⟩

theorem ours_step (base : List Cue) (ch : Str) (hch : jsTrim ch = ch) (hchne : ch ≠ [])
    (o t : Str) (st : ParsingState)
    (h : oursPending base ch st ∨ oursEmitted base ch st) :
    oursPending base ch (processLine o t st) ∨ oursEmitted base ch (processLine o t st) := by
  rcases h with ⟨hcues, raw', hcc, hraw⟩ | hem
  · have hfin : ∃ body, (finalizeAndAddCue st).cues =
        base ++ [(⟨ch ++ ':' :: ' ' :: body, some ch⟩ : Cue)] := by
      obtain ⟨body, hb⟩ := finalize_of_ours st raw' ch hcc hch hchne hraw
      exact ⟨body, by rw [hb, hcues]⟩
    unfold processLine
    split
    · right
      obtain ⟨body, hb⟩ := hfin
      exact ⟨body, [], by rw [show base ++ [(⟨ch ++ ':' :: ' ' :: body, some ch⟩ : Cue)] =
        base ++ ⟨ch ++ ':' :: ' ' :: body, some ch⟩ :: [] from rfl] at hb; exact hb⟩
    · right
      obtain ⟨body, hb⟩ := hfin
      exact ⟨body, [], hb⟩
    · right
      obtain ⟨body, hb⟩ := hfin
      exact ⟨body, [], hb⟩
    · right
      obtain ⟨body, hb⟩ := hfin
      exact ⟨body, [], hb⟩
    · right
      obtain ⟨body, hb⟩ := hfin
      exact ⟨body, [], hb⟩
    · split
      · right
        obtain ⟨body, hb⟩ := hfin
        exact ⟨body, [], hb⟩
      · split
        · rename_i cc hcc2
          rw [hcc] at hcc2
          cases hcc2
          left
          refine ⟨hcues, raw' ++ ' ' :: t, rfl, ?_⟩
          obtain ⟨x, hx, hxws⟩ := jsTrim_ne_nil_elim raw' hraw
          exact jsTrim_ne_nil_of_mem _ x (List.mem_append.mpr (Or.inl hx)) hxws
        · exfalso
          rename_i hnone
          rw [hcc] at hnone
          exact Option.noConfusion hnone
  · obtain ⟨ext, hext⟩ := processLine_cues_mono o t st
    exact Or.inr (oursEmitted_mono base ch st ext _ hext hem)

theorem ours_steps (base : List Cue) (ch : Str) (hch : jsTrim ch = ch) (hchne : ch ≠ [])
    (lines : List Str) (st : ParsingState)
    (h : oursPending base ch st ∨ oursEmitted base ch st) :
    oursPending base ch (processLines lines st) ∨
    oursEmitted base ch (processLines lines st) := by
  induction lines generalizing st with
  | nil => exact h
  | cons l rest ih =>
    exact ih (processLine l (jsTrim l) st)
      (ours_step base ch hch hchne l (jsTrim l) st h)

/-- An upper-case ASCII letter is not JS whitespace. -/
theorem upper_not_ws (c : Char) (h1 : 'A' ≤ c) (h2 : c ≤ 'Z') : jsIsWs c = false := by
  unfold jsIsWs charIn wsRanges
  simp only [List.any_cons, List.any_nil, Bool.or_eq_false_iff, Bool.and_eq_false_iff,
    decide_eq_false_iff_not, not_le]
  refine ⟨?_, ?_, ?_, ?_, ?_, ?_, ?_, ?_, ?_, ?_, trivial⟩ <;>
    first
      | exact Or.inr (lt_of_lt_of_le (by decide) h1)
      | exact Or.inl (lt_of_le_of_lt h2 (by decide))

/-- Right after a line classified as cue-start form (a) with capture `S`,
the in-progress cue is ours, attributed to `jsTrim S`. -/
theorem cueStart_kickoff (orig : Str) (st : ParsingState) (S : Str)
    (h : classifyLine orig (jsTrim orig) = .cueStart (some S)) (hSne : S ≠ []) :
    oursPending (finalizeAndAddCue st).cues (jsTrim S)
      (processLine orig (jsTrim orig) st) := by
  have htne : jsTrim orig ≠ [] := (classify_cueStart_elim orig (jsTrim orig) (some S) h).1
  unfold processLine
  rw [h]
  refine ⟨rfl, jsTrim orig, ?_, ?_⟩
  · simp only [Option.some.injEq]
    rw [if_neg hSne]
  · rw [jsTrim_idem]
    exact htne

/-- C1: any line classified as cue-start form (a) with captured speaker
`S` eventually yields — whatever lines follow and whenever the cue is
finalized — a cue whose speaker is `trim(S)` and whose text starts with
`trim(S) ++ ": "`, appended right after the cues already emitted. -/
theorem c1_cue_start_emission (orig : Str) (st : ParsingState) (S : Str)
    (moreLines : List Str)
    (h : classifyLine orig (jsTrim orig) = LineClass.cueStart (some S)) :
    ∃ body rest,
      (finalizeAndAddCue (processLines moreLines (processLine orig (jsTrim orig) st))).cues =
        (finalizeAndAddCue st).cues ++
          ⟨jsTrim S ++ ':' :: ' ' :: body, some (jsTrim S)⟩ :: rest := by
  obtain ⟨htne, oo, hoo, hcap⟩ := classify_cueStart_elim orig (jsTrim orig) (some S) h
  obtain ⟨c, srest, hSc, hA, hZ⟩ := cueStart_cap1_shape (jsTrim orig) oo hoo S hcap
  have hSne : S ≠ [] := by rw [hSc]; simp
  have hSws : jsIsWs c = false := upper_not_ws c hA hZ
  have hjS : jsTrim S ≠ [] := jsTrim_ne_nil_of_mem S c (by rw [hSc]; simp) hSws
  have hidem : jsTrim (jsTrim S) = jsTrim S := jsTrim_idem S
  have hkick := cueStart_kickoff orig st S h hSne
  have hsteps := ours_steps (finalizeAndAddCue st).cues (jsTrim S) hidem hjS moreLines
    (processLine orig (jsTrim orig) st) (Or.inl hkick)
  rcases hsteps with ⟨hcues, raw', hcc, hraw⟩ | ⟨body, rest, hem⟩
  · obtain ⟨body, hb⟩ :=
      finalize_of_ours (processLines moreLines (processLine orig (jsTrim orig) st))
        raw' (jsTrim S) hcc hidem hjS hraw
    exact ⟨body, [], by rw [hb, hcues]⟩
  · obtain ⟨ext, hext⟩ := finalize_cues_mono
      (processLines moreLines (processLine orig (jsTrim orig) st))
    exact ⟨body, rest ++ ext, by rw [hext, hem]; simp⟩

/-- C1 witness: the emission property at a concrete cue-start line. -/
theorem c1_cue_start_emission_witness :
    ∃ body rest,
      (finalizeAndAddCue (processLines []
          (processLine "PICARD: Engage.".data (jsTrim "PICARD: Engage.".data) initState))).cues =
        (finalizeAndAddCue initState).cues ++
          ⟨jsTrim "PICARD".data ++ ':' :: ' ' :: body, some (jsTrim "PICARD".data)⟩ :: rest :=
  c1_cue_start_emission "PICARD: Engage.".data initState "PICARD".data [] (by decide)

/-! ### Cache claims (C4, C5) -/

theorem assocGet_set_self {α : Type} (k : Str) (v : α) (l : List (Str × α)) :
    assocGet k (assocSet k v l) = some v := by
  simp [assocGet, assocSet, List.find?]

theorem assocGet_del_self {α : Type} (k : Str) (l : List (Str × α)) :
    assocGet k (assocDel k l) = none := by
  induction l with
  | nil => rfl
  | cons p rest ih =>
    by_cases h : p.1 = k
    · simp only [assocDel, List.filter_cons] at ih ⊢
      rw [if_neg (by simpa using h)]
      exact ih
    · simp only [assocDel, List.filter_cons] at ih ⊢
      rw [if_pos (by simpa using h)]
      simp only [assocGet, List.find?] at ih ⊢
      rw [show (decide (p.1 = k)) = false from by simpa using h]
      exact ih

/-- C4: `set(k, v, ttl)` with a positive ttl followed immediately by
`get(k)` returns `v`; once more than `ttl` seconds have elapsed, `get(k)`
returns absent and, when the persisted tier is enabled, the persisted
file for the key has been removed. -/
theorem c4_set_get_ttl {V : Type} (c : CacheService V) (fs : CacheFs V) (k : Str) (v : V)
    (ttl now now' : Nat) (httl : 0 < ttl) :
    (((c.set fs k v (some ttl) now).1.get (c.set fs k v (some ttl) now).2 k now).1 = some v) ∧
    (now + ttl * 1000 < now' →
      (((c.set fs k v (some ttl) now).1.get (c.set fs k v (some ttl) now).2 k now').1 = none ∧
       ∀ fp, c.persistentCacheEnabled = true →
         c.getFilePath (c.hashKey k) = some fp →
         assocGet fp
           (((c.set fs k v (some ttl) now).1.get (c.set fs k v (some ttl) now).2 k now').2.2)
           = none)) := by
  have hitem : c.itemFor v (some ttl) now = CacheItem.mk v (some (now + ttl * 1000)) := by
    unfold CacheService.itemFor
    dsimp only
    rw [if_pos httl]
  have hset1 : (c.set fs k v (some ttl) now).1 = { c with store := assocSet (c.getFullKey k) (CacheItem.mk v (some (now + ttl * 1000))) c.store } := by
    unfold CacheService.set
    dsimp only
    rw [hitem]
    split
    · split
      · rfl
      · rfl
    · rfl
  have hmem : assocGet ((c.set fs k v (some ttl) now).1.getFullKey k)
      (c.set fs k v (some ttl) now).1.store = some ⟨v, some (now + ttl * 1000)⟩ := by
    rw [hset1]
    exact assocGet_set_self _ _ _
  have hnstale : ¬ staleAt (some (now + ttl * 1000)) now = true := by
    simp only [staleAt, Bool.and_eq_true, decide_eq_true_eq]
    omega
  constructor
  · unfold CacheService.get
    dsimp only
    rw [hmem]
    dsimp only
    rw [if_neg hnstale]
  · intro hel
    have hstale : staleAt (some (now + ttl * 1000)) now' = true := by
      simp only [staleAt, Bool.and_eq_true, decide_eq_true_eq]
      omega
    constructor
    · unfold CacheService.get
      dsimp only
      rw [hmem]
      dsimp only
      rw [if_pos hstale]
      split
      · split
        · split
          · rfl
          · rfl
        · rfl
      · rfl
    · intro fp hen hfp
      have hfp1 : (c.set fs k v (some ttl) now).1.getFilePath
          ((c.set fs k v (some ttl) now).1.hashKey k) = some fp := by
        rw [hset1]
        exact hfp
      have hen1 : (c.set fs k v (some ttl) now).1.persistentCacheEnabled = true := by
        rw [hset1]
        exact hen
      have hfs : (c.set fs k v (some ttl) now).2 =
          assocSet fp (CacheItem.mk v (some (now + ttl * 1000))) fs := by
        unfold CacheService.set
        dsimp only
        rw [hitem, if_pos hen]
        rw [show c.getFilePath (c.hashKey k) = some fp from hfp]
      unfold CacheService.get
      dsimp only
      rw [hmem]
      dsimp only
      rw [if_pos hstale, if_pos hen1, hfp1]
      dsimp only
      rw [hfs]
      rw [if_pos (by rw [assocGet_set_self]; rfl)]
      exact assocGet_del_self _ _

/-- C4 witness: the ttl behaviour at concrete values (ttl one second,
persisted tier enabled, identity hash). -/
theorem c4_set_get_ttl_witness :
    ((((⟨"t".data, [], none, true, some "cache".data, fun s => s⟩ : CacheService Nat).set
        [] "k".data 7 (some 1) 0).1.get
      ((⟨"t".data, [], none, true, some "cache".data, fun s => s⟩ : CacheService Nat).set
        [] "k".data 7 (some 1) 0).2 "k".data 0).1 = some 7) ∧
    (0 + 1 * 1000 < 2000 →
      ((((⟨"t".data, [], none, true, some "cache".data, fun s => s⟩ : CacheService Nat).set
          [] "k".data 7 (some 1) 0).1.get
        ((⟨"t".data, [], none, true, some "cache".data, fun s => s⟩ : CacheService Nat).set
          [] "k".data 7 (some 1) 0).2 "k".data 2000).1 = none ∧
       ∀ fp, (⟨"t".data, [], none, true, some "cache".data, fun s => s⟩ :
           CacheService Nat).persistentCacheEnabled = true →
         (⟨"t".data, [], none, true, some "cache".data, fun s => s⟩ :
           CacheService Nat).getFilePath
           ((⟨"t".data, [], none, true, some "cache".data, fun s => s⟩ :
             CacheService Nat).hashKey "k".data) = some fp →
         assocGet fp
           ((((⟨"t".data, [], none, true, some "cache".data, fun s => s⟩ : CacheService Nat).set
               [] "k".data 7 (some 1) 0).1.get
             ((⟨"t".data, [], none, true, some "cache".data, fun s => s⟩ : CacheService Nat).set
               [] "k".data 7 (some 1) 0).2 "k".data 2000).2.2) = none)) :=
  c4_set_get_ttl (⟨"t".data, [], none, true, some "cache".data, fun s => s⟩ : CacheService Nat)
    [] "k".data 7 1 0 2000 (by decide)

/-- C5 counterexample: `has` detecting a stale in-memory entry reports it
absent but does **not** delete it (the code's own comment says deletion is
deferred to `get`/`set`): after `set` with a one-second ttl at time 0, a
`has` at time 2000 returns `false`, yet the in-memory entry is still
present afterwards (`has` never modifies the store by construction, and
even its file tier is returned unchanged). -/
theorem c5_has_stale_counterexample :
    (((⟨"t".data, [], none, false, none, fun s => s⟩ : CacheService Nat).set
        [] "k".data 7 (some 1) 0).1.has
      ((⟨"t".data, [], none, false, none, fun s => s⟩ : CacheService Nat).set
        [] "k".data 7 (some 1) 0).2 "k".data 2000).1 = false ∧
    assocGet ((⟨"t".data, [], none, false, none, fun s => s⟩ : CacheService Nat).getFullKey
        "k".data)
      (((⟨"t".data, [], none, false, none, fun s => s⟩ : CacheService Nat).set
          [] "k".data 7 (some 1) 0).1.store) = some ⟨7, some 1000⟩ := by
  constructor
  · decide
  · decide

/-- C5 (amended): a stale entry is treated as absent by `get` and `has` in
both tiers; `get` proactively deletes a stale in-memory entry and a stale
persisted file, and `has` proactively deletes a stale persisted file —
but `has` leaves a stale **in-memory** entry in place. -/
theorem c5_stale_deletion_amended {V : Type} (c : CacheService V) (fs : CacheFs V)
    (k : Str) (now : Nat) :
    (∀ item, assocGet (c.getFullKey k) c.store = some item →
      staleAt item.expiry now = true →
      (c.get fs k now).1 = none ∧
      assocGet (c.getFullKey k) (c.get fs k now).2.1.store = none ∧
      ∀ fp, c.persistentCacheEnabled = true →
        c.getFilePath (c.hashKey k) = some fp →
        assocGet fp (c.get fs k now).2.2 = none) ∧
    (∀ fp item, assocGet (c.getFullKey k) c.store = none →
      c.persistentCacheEnabled = true → c.getFilePath (c.hashKey k) = some fp →
      assocGet fp fs = some item → staleAt item.expiry now = true →
      (c.get fs k now).1 = none ∧ assocGet fp (c.get fs k now).2.2 = none) ∧
    (∀ fp item, assocGet (c.getFullKey k) c.store = none →
      c.persistentCacheEnabled = true → c.getFilePath (c.hashKey k) = some fp →
      assocGet fp fs = some item → staleAt item.expiry now = true →
      (c.has fs k now).1 = false ∧ assocGet fp (c.has fs k now).2 = none) ∧
    (∀ item, assocGet (c.getFullKey k) c.store = some item →
      staleAt item.expiry now = true →
      (c.has fs k now).1 = false ∧ (c.has fs k now).2 = fs) := by
  refine ⟨?_, ?_, ?_, ?_⟩
  · intro item hmem hstale
    unfold CacheService.get
    dsimp only
    rw [hmem]
    dsimp only
    rw [if_pos hstale]
    refine ⟨?_, ?_, ?_⟩
    · split
      · split
        · split
          · rfl
          · rfl
        · rfl
      · rfl
    · split
      · split
        · split
          · exact assocGet_del_self _ _
          · exact assocGet_del_self _ _
        · exact assocGet_del_self _ _
      · exact assocGet_del_self _ _
    · intro fp hen hfp
      rw [if_pos hen, hfp]
      dsimp only
      cases hfs : assocGet fp fs with
      | none =>
        rw [if_neg (by simp)]
        exact hfs
      | some v =>
        rw [if_pos (show (some v).isSome = true from rfl)]
        exact assocGet_del_self _ _
  · intro fp item hmiss hen hfp hfile hstale
    unfold CacheService.get
    dsimp only
    rw [hmiss]
    dsimp only
    rw [if_pos hen, hfp]
    dsimp only
    rw [hfile]
    dsimp only
    rw [if_pos hstale]
    exact ⟨rfl, assocGet_del_self _ _⟩
  · intro fp item hmiss hen hfp hfile hstale
    unfold CacheService.has
    dsimp only
    rw [hmiss]
    dsimp only
    rw [if_pos hen, hfp]
    dsimp only
    rw [hfile]
    dsimp only
    rw [if_neg (by rw [hstale]; simp)]
    exact ⟨rfl, assocGet_del_self _ _⟩
  · intro item hmem hstale
    unfold CacheService.has
    dsimp only
    rw [hmem]
    dsimp only
    rw [if_pos hstale]
    exact ⟨rfl, rfl⟩

/-- C5 amended witness: the `get`-deletes-stale-memory-entry clause at a
concrete persistence-enabled instance — the stale entry vanishes from the
in-memory store and its persisted file is removed too. -/
theorem c5_stale_deletion_amended_witness :
    ((⟨"t".data, [("t:k".data, ⟨7, some 1000⟩)], none, true, some "cache".data,
        fun s => s⟩ : CacheService Nat).get
      [("cache/k.json".data, ⟨7, some 1000⟩)] "k".data 2000).1 = none ∧
    assocGet ((⟨"t".data, [("t:k".data, ⟨7, some 1000⟩)], none, true, some "cache".data,
        fun s => s⟩ : CacheService Nat).getFullKey "k".data)
      ((⟨"t".data, [("t:k".data, ⟨7, some 1000⟩)], none, true, some "cache".data,
          fun s => s⟩ : CacheService Nat).get
        [("cache/k.json".data, ⟨7, some 1000⟩)] "k".data 2000).2.1.store = none ∧
    ∀ fp, (⟨"t".data, [("t:k".data, ⟨7, some 1000⟩)], none, true, some "cache".data,
        fun s => s⟩ : CacheService Nat).persistentCacheEnabled = true →
      (⟨"t".data, [("t:k".data, ⟨7, some 1000⟩)], none, true, some "cache".data,
          fun s => s⟩ : CacheService Nat).getFilePath
        ((⟨"t".data, [("t:k".data, ⟨7, some 1000⟩)], none, true, some "cache".data,
            fun s => s⟩ : CacheService Nat).hashKey "k".data) = some fp →
      assocGet fp ((⟨"t".data, [("t:k".data, ⟨7, some 1000⟩)], none, true,
          some "cache".data, fun s => s⟩ : CacheService Nat).get
        [("cache/k.json".data, ⟨7, some 1000⟩)] "k".data 2000).2.2 = none :=
  (c5_stale_deletion_amended
      (⟨"t".data, [("t:k".data, ⟨7, some 1000⟩)], none, true, some "cache".data,
        fun s => s⟩ : CacheService Nat)
      [("cache/k.json".data, ⟨7, some 1000⟩)] "k".data 2000).1
    ⟨7, some 1000⟩ (by decide) (by decide)

/-! ### C9: IO failure propagation -/

/-- A failed read on a cache miss propagates out of `parseTranscript`
unchanged (there is no retry: the file system is consulted once). -/
theorem parseTranscript_propagates (w : PWorld) (p : Str) (e : Str)
    (hmiss : (w.cache.get w.cacheFs (jsBasename p) w.now).1 = none)
    (hread : w.fs p = .error e) :
    (parseTranscript w p).1 = .error e := by
  unfold parseTranscript
  rcases hG : w.cache.get w.cacheFs (jsBasename p) w.now with ⟨r, c', fs'⟩
  rw [hG] at hmiss
  simp only at hmiss
  subst hmiss
  dsimp only
  rw [hG]
  dsimp only
  rw [hread]

/-- If a prefix of the file list parses cleanly and the next file's parse
fails with `e`, the whole loop fails with `e` (no partial results are
produced: the result is the bare error). -/
theorem searchLoop_abort (flt : Cue → Bool) (n : Nat) (e : Str)
    (rest : List Str) (pre : List Str) :
    ∀ w acc1 w1 w2, searchLoop w pre flt n = (.ok acc1, w1) →
      searchLoop w1 rest flt n = (.error e, w2) →
      searchLoop w (pre ++ rest) flt n = (.error e, w2) := by
  induction pre with
  | nil =>
    intro w acc1 w1 w2 hpre hrest
    simp only [searchLoop] at hpre
    cases hpre
    exact hrest
  | cons f pre' ih =>
    intro w acc1 w1 w2 hpre hrest
    simp only [searchLoop] at hpre ⊢
    rcases hP : parseTranscript w f with ⟨pr, w'⟩
    rw [hP] at hpre
    cases pr with
    | error e' => simp at hpre
    | ok fileCues =>
      simp only at hpre ⊢
      rcases hL : searchLoop w' pre' flt n with ⟨lr, w''⟩
      rw [hL] at hpre
      cases lr with
      | error e' => simp at hpre
      | ok acc' =>
        simp only at hpre
        cases hpre
        simp only [List.append_eq]
        rw [ih w' acc' w1 w2 hL hrest]

/-- A read failure on the file at position `pre.length` of the transcript
list aborts the whole filtered search with that error. -/
theorem searchCuesByFilter_abort (w : PWorld) (flt : Cue → Bool) (ctx : Option Int)
    (pre post : List Str) (f : Str) (acc1 : List CueWithContext) (w1 : PWorld) (e : Str)
    (hfiles : getTranscriptFiles w = pre ++ f :: post)
    (hpre : searchLoop w pre flt ((max 0 (ctx.getD 0)).toNat) = (.ok acc1, w1))
    (hmiss : (w1.cache.get w1.cacheFs (jsBasename f) w1.now).1 = none)
    (hread : w1.fs f = .error e) :
    ∃ w2, searchCuesByFilter w flt ctx = (.error e, w2) := by
  have hpr1 : (parseTranscript w1 f).1 = .error e :=
    parseTranscript_propagates w1 f e hmiss hread
  rcases hP : parseTranscript w1 f with ⟨pr, w'⟩
  rw [hP] at hpr1
  simp only at hpr1
  subst hpr1
  have hfpost : searchLoop w1 (f :: post) flt ((max 0 (ctx.getD 0)).toNat) =
      (.error e, w') := by
    simp only [searchLoop]
    rw [hP]
  have habort := searchLoop_abort flt ((max 0 (ctx.getD 0)).toNat) e (f :: post) pre
    w acc1 w1 w' hpre hfpost
  refine ⟨w', ?_⟩
  unfold searchCuesByFilter
  dsimp only
  rw [hfiles, habort]

/-- C9: a source-file read failure is propagated unchanged by
`parseTranscript` (the file system is consulted once, with no retry), and
a multi-file `searchDialog` or `searchKeyword` that hits one unreadable
file aborts entirely with that error, yielding no partial results. -/
theorem c9_io_failure_aborts_search :
    (∀ (w : PWorld) (p e : Str),
      (w.cache.get w.cacheFs (jsBasename p) w.now).1 = none →
      w.fs p = .error e → (parseTranscript w p).1 = .error e) ∧
    (∀ (w : PWorld) (cfg : TranscriptSearchConfig) (pre post : List Str) (f : Str)
        (acc1 : List CueWithContext) (w1 : PWorld) (e : Str),
      getTranscriptFiles w = pre ++ f :: post →
      searchLoop w pre (searchDialogFilter cfg.patRe)
        ((max 0 (cfg.contextLines.getD 0)).toNat) = (.ok acc1, w1) →
      (w1.cache.get w1.cacheFs (jsBasename f) w1.now).1 = none →
      w1.fs f = .error e → (searchDialog w cfg).1 = .error e) ∧
    (∀ (w : PWorld) (cfg : TranscriptSearchConfig) (pre post : List Str) (f : Str)
        (acc1 : List CueWithContext) (w1 : PWorld) (e : Str),
      getTranscriptFiles w = pre ++ f :: post →
      searchLoop w pre (searchKeywordFilter cfg.patRe)
        ((max 0 (cfg.contextLines.getD 0)).toNat) = (.ok acc1, w1) →
      (w1.cache.get w1.cacheFs (jsBasename f) w1.now).1 = none →
      w1.fs f = .error e → (searchKeyword w cfg).1 = .error e) := by
  refine ⟨parseTranscript_propagates, ?_, ?_⟩
  · intro w cfg pre post f acc1 w1 e hfiles hpre hmiss hread
    obtain ⟨w2, hab⟩ := searchCuesByFilter_abort w (searchDialogFilter cfg.patRe)
      cfg.contextLines pre post f acc1 w1 e hfiles hpre hmiss hread
    unfold searchDialog
    rw [hab]
  · intro w cfg pre post f acc1 w1 e hfiles hpre hmiss hread
    obtain ⟨w2, hab⟩ := searchCuesByFilter_abort w (searchKeywordFilter cfg.patRe)
      cfg.contextLines pre post f acc1 w1 e hfiles hpre hmiss hread
    unfold searchKeyword
    rw [hab]

/-- C9 witness: a one-file world whose only file is unreadable. -/
theorem c9_io_failure_aborts_search_witness :
    (searchDialog
        ⟨⟨"transcripts".data, [], none, false, none, fun s => s⟩, [],
         fun _ => .error "boom".data, ["a.txt".data], 0⟩
        ⟨rstr "PICARD", none⟩).1 = .error "boom".data :=
  c9_io_failure_aborts_search.2.1
    ⟨⟨"transcripts".data, [], none, false, none, fun s => s⟩, [],
     fun _ => .error "boom".data, ["a.txt".data], 0⟩
    ⟨rstr "PICARD", none⟩ [] [] "a.txt".data [] _ "boom".data
    (by decide) rfl (by decide) rfl

/-! ### C10: the parse cache key is the basename -/

/-- A `get` that returns a value leaves (or installs) a fresh entry for
the key in the in-memory store. -/
theorem cacheGet_some_post {V : Type} (c : CacheService V) (fs : CacheFs V) (k : Str)
    (now : Nat) (r : V) (c' : CacheService V) (fs' : CacheFs V)
    (h : c.get fs k now = (some r, c', fs')) :
    ∃ item, assocGet (c'.getFullKey k) c'.store = some item ∧
      item.value = r ∧ staleAt item.expiry now = false := by
  unfold CacheService.get at h
  dsimp only at h
  rcases hm : assocGet (c.getFullKey k) c.store with _ | memItem
  · rw [hm] at h
    dsimp only at h
    split at h
    · split at h
      · split at h
        · split at h
          · exact absurd h (by simp)
          · rename_i fci hfci hst
            injection h with h1 h2
            injection h2 with h2 h3
            injection h1 with h1
            subst h2
            exact ⟨fci, assocGet_set_self _ _ _, h1, by simpa using hst⟩
        · exact absurd h (by simp)
      · exact absurd h (by simp)
    · exact absurd h (by simp)
  · rw [hm] at h
    dsimp only at h
    split at h
    · split at h
      · split at h
        · split at h
          · exact absurd h (by simp)
          · exact absurd h (by simp)
        · exact absurd h (by simp)
      · exact absurd h (by simp)
    · rename_i hst
      injection h with h1 h2
      injection h2 with h2 h3
      injection h1 with h1
      subst h2
      exact ⟨memItem, hm, h1, by simpa using hst⟩

theorem itemFor_value {V : Type} (c : CacheService V) (v : V) (ttl : Option Nat)
    (now : Nat) : (c.itemFor v ttl now).value = v := by
  unfold CacheService.itemFor
  dsimp only
  split
  · split
    · rfl
    · rfl
  · rfl

theorem itemFor_not_stale {V : Type} (c : CacheService V) (v : V) (ttl : Option Nat)
    (now : Nat) : staleAt (c.itemFor v ttl now).expiry now = false := by
  unfold CacheService.itemFor
  dsimp only
  split
  · rename_i t ht
    split
    · simp only [staleAt, Bool.and_eq_false_iff, decide_eq_false_iff_not, not_lt]
      right
      omega
    · rfl
  · rfl

theorem cacheSet_fst {V : Type} (c : CacheService V) (fs : CacheFs V) (k : Str) (v : V)
    (ttl : Option Nat) (now : Nat) :
    (c.set fs k v ttl now).1 =
      { c with store := assocSet (c.getFullKey k) (c.itemFor v ttl now) c.store } := by
  unfold CacheService.set
  dsimp only
  split
  · split
    · rfl
    · rfl
  · rfl

/-- `set` installs a fresh entry for the key. -/
theorem cacheSet_post {V : Type} (c : CacheService V) (fs : CacheFs V) (k : Str) (v : V)
    (ttl : Option Nat) (now : Nat) :
    ∃ item, assocGet ((c.set fs k v ttl now).1.getFullKey k)
        (c.set fs k v ttl now).1.store = some item ∧
      item.value = v ∧ staleAt item.expiry now = false := by
  refine ⟨c.itemFor v ttl now, ?_, itemFor_value c v ttl now, itemFor_not_stale c v ttl now⟩
  rw [cacheSet_fst]
  exact assocGet_set_self _ _ _

/-- After a successful `parseTranscript`, the in-memory cache holds the
returned cues under the file's **basename**, unexpired as of the parse
time. -/
theorem parseTranscript_post (w : PWorld) (p : Str) (cues1 : List Cue)
    (h : (parseTranscript w p).1 = .ok cues1) :
    ∃ item, assocGet ((parseTranscript w p).2.cache.getFullKey (jsBasename p))
        (parseTranscript w p).2.cache.store = some item ∧
      item.value = cues1 ∧ staleAt item.expiry w.now = false := by
  unfold parseTranscript at h ⊢
  dsimp only at h ⊢
  rcases hG : w.cache.get w.cacheFs (jsBasename p) w.now with ⟨ro, c', fs2⟩
  cases ro with
  | some cached =>
    rw [hG] at h
    dsimp only at h ⊢
    obtain ⟨item, hi1, hi2, hi3⟩ := cacheGet_some_post w.cache w.cacheFs (jsBasename p)
      w.now cached c' fs2 hG
    injection h with h1
    subst h1
    exact ⟨item, hi1, hi2, hi3⟩
  | none =>
    rw [hG] at h
    dsimp only at h ⊢
    rcases hR : w.fs p with e | content
    · rw [hR] at h
      dsimp only at h
      exact absurd h (by simp)
    · rw [hR] at h
      dsimp only at h ⊢
      injection h with h1
      subst h1
      exact cacheSet_post c' fs2 (jsBasename p) (parseLines content) none w.now

/-- A fresh in-memory entry makes `get` hit without touching anything. -/
theorem cacheGet_hit {V : Type} (c : CacheService V) (fs : CacheFs V) (k : Str)
    (now : Nat) (item : CacheItem V)
    (hmem : assocGet (c.getFullKey k) c.store = some item)
    (hstale : staleAt item.expiry now = false) :
    c.get fs k now = (some item.value, c, fs) := by
  unfold CacheService.get
  dsimp only
  rw [hmem]
  dsimp only
  rw [if_neg (by rw [hstale]; simp)]

/-- C10: the parse cache key is the file's basename alone.  After a
successful parse of `p1`, parsing any other path `p2` with the same
basename — at any time at which the cached entry is unexpired, and under
**any** file-reading collaborator, i.e. without reading `p2` at all —
returns the first file's cues. -/
theorem c10_basename_cache_key (w : PWorld) (p1 p2 : Str) (cues1 : List Cue)
    (h1 : (parseTranscript w p1).1 = .ok cues1)
    (hbase : jsBasename p2 = jsBasename p1)
    (fs2 : Str → Except Str Str) (n2 : Nat)
    (hunexp : ∀ item,
      assocGet ((parseTranscript w p1).2.cache.getFullKey (jsBasename p1))
        (parseTranscript w p1).2.cache.store = some item →
      staleAt item.expiry n2 = false) :
    (parseTranscript
        { (parseTranscript w p1).2 with fs := fs2, now := n2 } p2).1 = .ok cues1 := by
  obtain ⟨item, hi1, hi2, hi3⟩ := parseTranscript_post w p1 cues1 h1
  set w1 := (parseTranscript w p1).2 with hw1
  have hhit := cacheGet_hit w1.cache w1.cacheFs (jsBasename p1) n2 item hi1 (hunexp item hi1)
  unfold parseTranscript
  dsimp only
  rw [hbase, hhit]
  dsimp only
  rw [hi2]

def c10World : PWorld :=
  ⟨⟨"transcripts".data, [], none, false, none, fun s => s⟩, [],
   fun p => if p = "d1/x.txt".data then .ok "Hi.".data else .error "no".data, [], 0⟩

/-- C10 witness: with identical basenames `x.txt`, the second parse
returns the first file's cue even though its own file is unreadable. -/
theorem c10_basename_cache_key_witness :
    (parseTranscript
        { (parseTranscript c10World "d1/x.txt".data).2 with
            fs := fun _ => .error "unread".data, now := 5000 } "d2/x.txt".data).1 =
      .ok [⟨"Hi.".data, none⟩] :=
  c10_basename_cache_key c10World "d1/x.txt".data "d2/x.txt".data [⟨"Hi.".data, none⟩]
    (by rfl) (by decide) (fun _ => .error "unread".data) 5000
    (fun item h => by
      rw [show assocGet ((parseTranscript c10World "d1/x.txt".data).2.cache.getFullKey
            (jsBasename "d1/x.txt".data))
            (parseTranscript c10World "d1/x.txt".data).2.cache.store =
          some ⟨[⟨"Hi.".data, none⟩], none⟩ from by rfl] at h
      injection h with h1
      subst h1
      decide)

def c7World : PWorld :=
  ⟨⟨"transcripts".data, [], none, false, none, fun s => s⟩, [],
   fun p => if p = "a.txt".data then .ok "Look.\nPICARD: Engage.".data else .error "no".data,
   ["a.txt".data], 0⟩

/-- C7: `contextLinesUsed` echoes the raw requested value, not the context
size actually used.  With `contextLines = -1` the match's neighbour cue is
not collected (the clamped size 0 is used), yet the response reports
`contextLinesUsed = -1`; the second conjunct shows the neighbour exists and
is collected once a positive size is requested. -/
theorem c7_contextLinesUsed_counterexample :
    ((searchDialog c7World ⟨rstr "PICARD", some (-1)⟩).1 =
      .ok ⟨[⟨⟨"PICARD: Engage.".data, some "PICARD".data⟩, [], []⟩], 1,
           rstr "PICARD", some (-1)⟩) ∧
    ((searchDialog c7World ⟨rstr "PICARD", some 1⟩).1 =
      .ok ⟨[⟨⟨"PICARD: Engage.".data, some "PICARD".data⟩,
             [⟨"Look.".data, none⟩], []⟩], 1,
           rstr "PICARD", some 1⟩) :=
  ⟨rfl, rfl⟩

/-- Each collected match has windows of at most `n` cues and its
`before ++ cue :: after` block is a contiguous slice of the file's cues. -/
theorem matchesInFile_mem (l : List Cue) (filterFn : Cue → Bool) (n : Nat)
    (m : CueWithContext) (hm : m ∈ matchesInFile l filterFn n) :
    m.before.length ≤ n ∧ m.after.length ≤ n ∧
    ∃ pre suf, l = pre ++ (m.before ++ m.cue :: m.after) ++ suf := by
  simp only [matchesInFile, List.mem_filterMap, List.mem_range] at hm
  obtain ⟨i, hi, hsome⟩ := hm
  cases hl : l[i]? with
  | none => rw [hl] at hsome; exact Option.noConfusion hsome
  | some cue =>
    rw [hl] at hsome
    dsimp only at hsome
    by_cases hf : filterFn cue
    · rw [if_pos hf] at hsome
      have hm2 := Option.some.inj hsome
      subst hm2
      dsimp only
      have hcue : l[i] = cue := by
        rw [List.getElem?_eq_getElem hi] at hl
        exact Option.some.inj hl
      have hM1 : i < min l.length (i + 1 + n) := by omega
      have hMle : min l.length (i + 1 + n) ≤ l.length := by omega
      refine ⟨?_, ?_, ?_⟩
      · simp only [List.length_drop, List.length_take]
        omega
      · simp only [List.length_drop, List.length_take]
        omega
      · refine ⟨(l.take (min l.length (i + 1 + n))).take (i - n),
               l.drop (min l.length (i + 1 + n)), ?_⟩
        have htl : (l.take (min l.length (i + 1 + n))).length =
            min l.length (i + 1 + n) := by
          simp only [List.length_take]
          omega
        have hti : (l.take (min l.length (i + 1 + n))).take i = l.take i := by
          rw [List.take_take]
          congr 1
          omega
        have hdropi : (l.take (min l.length (i + 1 + n))).drop i =
            cue :: (l.take (min l.length (i + 1 + n))).drop (i + 1) := by
          rw [List.drop_eq_getElem_cons (by rw [htl]; exact hM1)]
          congr 1
          rw [List.getElem_take]
          exact hcue
        have hsplit : (l.take (min l.length (i + 1 + n))).drop (i - n) =
            (l.take i).drop (i - n) ++
              (l.take (min l.length (i + 1 + n))).drop i := by
          conv_lhs => rw [← List.take_append_drop i
            (l.take (min l.length (i + 1 + n)))]
          rw [List.drop_append_eq_append_drop]
          rw [hti]
          have h0 : i - n - (l.take i).length = 0 := by
            simp only [List.length_take]
            omega
          rw [h0, List.drop_zero]
        calc l = l.take (min l.length (i + 1 + n)) ++
                  l.drop (min l.length (i + 1 + n)) :=
              (List.take_append_drop _ l).symm
          _ = ((l.take (min l.length (i + 1 + n))).take (i - n) ++
                (l.take (min l.length (i + 1 + n))).drop (i - n)) ++
                  l.drop (min l.length (i + 1 + n)) := by
              rw [List.take_append_drop (i - n)
                (l.take (min l.length (i + 1 + n)))]
          _ = _ := by
              rw [hsplit, hdropi]
    · rw [if_neg hf] at hsome
      exact Option.noConfusion hsome

/-- The per-file parse results a `searchLoop` run threads through: the
projection of the same recursion that records each file's parsed cue
list (with the same cache/file-system state passing). -/
def searchLoopCues (w : PWorld) (files : List Str) :
    Except Str (List (List Cue)) × PWorld :=
  match files with
  | [] => (.ok [], w)
  | f :: rest =>
    match parseTranscript w f with
    | (.error e, w') => (.error e, w')
    | (.ok fileCues, w') =>
      match searchLoopCues w' rest with
      | (.error e, w'') => (.error e, w'')
      | (.ok acc, w'') => (.ok (fileCues :: acc), w'')

/-- `searchLoop` is exactly the per-file `matchesInFile` collection over
the cue lists the run itself parses, concatenated in file order. -/
theorem searchLoop_eq_cues (files : List Str) (w : PWorld)
    (filterFn : Cue → Bool) (n : Nat) :
    searchLoop w files filterFn n =
      (Except.map (fun cls => (cls.map
          (fun l => matchesInFile l filterFn n)).flatten)
        (searchLoopCues w files).1,
       (searchLoopCues w files).2) := by
  induction files generalizing w with
  | nil => rfl
  | cons f rest ih =>
    unfold searchLoop searchLoopCues
    cases hp : parseTranscript w f with
    | mk r w0 =>
      cases r with
      | error e => rfl
      | ok fileCues =>
        dsimp only
        rw [ih w0]
        cases hs : searchLoopCues w0 rest with
        | mk r2 w2 =>
          cases r2 with
          | error e => rfl
          | ok cls => rfl

/-- A successful `_searchCuesByFilter` returns exactly the concatenation,
in file order, of the per-file `matchesInFile` collections over the cue
lists this very run parses. -/
theorem searchCuesByFilter_ok_content (w : PWorld) (filterFn : Cue → Bool)
    (contextLines : Option Int) (ms : List CueWithContext) (w' : PWorld)
    (h : searchCuesByFilter w filterFn contextLines = (.ok ms, w')) :
    ∃ cls, searchLoopCues w (getTranscriptFiles w) = (.ok cls, w') ∧
      ms = (cls.map (fun l =>
        matchesInFile l filterFn (max 0 (contextLines.getD 0)).toNat)).flatten := by
  unfold searchCuesByFilter at h
  dsimp only at h
  rw [searchLoop_eq_cues] at h
  cases hsc : searchLoopCues w (getTranscriptFiles w) with
  | mk r2 w2 =>
    rw [hsc] at h
    cases r2 with
    | error e =>
      dsimp only [Except.map] at h
      injection h with h1 h2
      exact Except.noConfusion h1
    | ok cls =>
      dsimp only [Except.map] at h
      injection h with h1 h2
      injection h1 with h1
      subst h2
      exact ⟨cls, rfl, h1.symm⟩

/-- C7 (amended): for both search entry points, the returned matches are
exactly the per-file `matchesInFile` collections over the cue lists the
run itself parses (`searchLoopCues` threads the same cache and file
states), concatenated in file order — so each match's before and after
windows hold at most N cues each (N being the requested context size
clamped to non-negative, default 0) and form with the matched cue a
contiguous slice of the parsed cue list of the single run file that
produced the match; however the response's `contextLinesUsed` field
echoes the requested value exactly as given, not the clamped size
actually used. -/
theorem c7_context_windows_amended (w : PWorld) (config : TranscriptSearchConfig)
    (res : TranscriptSearchResult) (w' : PWorld)
    (hd : searchDialog w config = (.ok res, w') ∨
          searchKeyword w config = (.ok res, w')) :
    res.contextLinesUsed = config.contextLines ∧
    ∃ cls, searchLoopCues w (getTranscriptFiles w) = (.ok cls, w') ∧
      (∃ filt, (filt = searchDialogFilter config.patRe ∨
                filt = searchKeywordFilter config.patRe) ∧
        res.cues = (cls.map (fun l =>
          matchesInFile l filt (max 0 (config.contextLines.getD 0)).toNat)).flatten) ∧
      ∀ m ∈ res.cues,
        m.before.length ≤ (max 0 (config.contextLines.getD 0)).toNat ∧
        m.after.length ≤ (max 0 (config.contextLines.getD 0)).toNat ∧
        ∃ l ∈ cls, ∃ pre suf, l = pre ++ (m.before ++ m.cue :: m.after) ++ suf := by
  rcases hd with h | h
  · unfold searchDialog at h
    cases hs : searchCuesByFilter w (searchDialogFilter config.patRe)
        config.contextLines with
    | mk r w0 =>
      rw [hs] at h
      cases r with
      | error e =>
        dsimp only at h
        injection h with h1 h2
        exact Except.noConfusion h1
      | ok matched =>
        dsimp only at h
        injection h with h1 h2
        injection h1 with h1
        subst h1
        subst h2
        obtain ⟨cls, hcls, heq⟩ := searchCuesByFilter_ok_content w
          (searchDialogFilter config.patRe) config.contextLines matched w0 hs
        refine ⟨rfl, cls, hcls,
          ⟨searchDialogFilter config.patRe, .inl rfl, heq⟩, ?_⟩
        intro m hm
        dsimp only at hm
        rw [heq] at hm
        simp only [List.mem_flatten, List.mem_map] at hm
        obtain ⟨ms2, ⟨l, hl, rfl⟩, hm2⟩ := hm
        obtain ⟨hb, ha, pre, suf, hslice⟩ := matchesInFile_mem l _ _ m hm2
        exact ⟨hb, ha, l, hl, pre, suf, hslice⟩
  · unfold searchKeyword at h
    cases hs : searchCuesByFilter w (searchKeywordFilter config.patRe)
        config.contextLines with
    | mk r w0 =>
      rw [hs] at h
      cases r with
      | error e =>
        dsimp only at h
        injection h with h1 h2
        exact Except.noConfusion h1
      | ok matched =>
        dsimp only at h
        injection h with h1 h2
        injection h1 with h1
        subst h1
        subst h2
        obtain ⟨cls, hcls, heq⟩ := searchCuesByFilter_ok_content w
          (searchKeywordFilter config.patRe) config.contextLines matched w0 hs
        refine ⟨rfl, cls, hcls,
          ⟨searchKeywordFilter config.patRe, .inr rfl, heq⟩, ?_⟩
        intro m hm
        dsimp only at hm
        rw [heq] at hm
        simp only [List.mem_flatten, List.mem_map] at hm
        obtain ⟨ms2, ⟨l, hl, rfl⟩, hm2⟩ := hm
        obtain ⟨hb, ha, pre, suf, hslice⟩ := matchesInFile_mem l _ _ m hm2
        exact ⟨hb, ha, l, hl, pre, suf, hslice⟩

def c7Cfg : TranscriptSearchConfig := ⟨rstr "PICARD", some (-1)⟩

def c7Res : TranscriptSearchResult :=
  ⟨[⟨⟨"PICARD: Engage.".data, some "PICARD".data⟩, [], []⟩], 1,
   rstr "PICARD", some (-1)⟩

/-- C7 witness: the amended theorem applied to a concrete one-file search
with requested context size `-1`. -/
theorem c7_context_windows_amended_witness :
    c7Res.contextLinesUsed = c7Cfg.contextLines ∧
    ∃ cls, searchLoopCues c7World (getTranscriptFiles c7World) =
        (.ok cls, (searchDialog c7World c7Cfg).2) ∧
      (∃ filt, (filt = searchDialogFilter c7Cfg.patRe ∨
                filt = searchKeywordFilter c7Cfg.patRe) ∧
        c7Res.cues = (cls.map (fun l =>
          matchesInFile l filt (max 0 (c7Cfg.contextLines.getD 0)).toNat)).flatten) ∧
      ∀ m ∈ c7Res.cues,
        m.before.length ≤ (max 0 (c7Cfg.contextLines.getD 0)).toNat ∧
        m.after.length ≤ (max 0 (c7Cfg.contextLines.getD 0)).toNat ∧
        ∃ l ∈ cls, ∃ pre suf, l = pre ++ (m.before ++ m.cue :: m.after) ++ suf :=
  c7_context_windows_amended c7World c7Cfg c7Res
    (searchDialog c7World c7Cfg).2 (.inl rfl)
